import Mathlib

/-!
# dhall-golang: the type checker of `ast/typecheck.go` and `ast/ast.go`

A shallow embedding of the Go type checker.

* Go's `(Expr, error)` result, together with the run-time panics the code can
  raise (failed type assertion, method call on a nil interface, index out of
  range), is the three-way type `Res`.
* `Pi.TypeWith` updates the context map in place, so every `TypeWith` takes the
  context and returns the context as the call leaves it.
* `LambdaExpr.TypeWith` calls `TypeWith` on a term it has just built (the `Pi`),
  which is not a sub-term of its receiver; recursion is therefore bounded by a
  fuel argument, and `Returns` says that some amount of fuel suffices.
* `Shift`, `Subst` and `Rule` are called by the code but defined outside the
  files at hand; they are the fields of `Prims`, and every general theorem holds
  for all of them.
* `Normalize` is in ast.go for `Const`, `Var` and `LambdaExpr` only. The checker
  uses the total function `Normalize`, in which the normalization of the term a
  reduction has produced is a field of `Prims` as well; `NormalizeFuel` spells
  that call out, with a bound on the depth of nested calls, and `NormalizesTo`
  says that some bound suffices.
-/

namespace Dhall

/-! ## Terms -/

/-- Go `type Const int`; the declared constants `Type`, `Kind`, `Sort` are the
values 0, 1 and 2 (`iota`). -/
structure Const where
  n : Int
  deriving DecidableEq

/-- Go constant `Type` (`Const(0)`). -/
def Const.Type_ : Const := ⟨0⟩

/-- Go constant `Kind` (`Const(1)`). -/
def Const.Kind : Const := ⟨1⟩

/-- Go constant `Sort` (`Const(2)`). -/
def Const.Sort_ : Const := ⟨2⟩

/-- Go `Var struct { Name string; Index int }`. -/
structure Var where
  Name : String
  Index : Int
  deriving DecidableEq

mutual
/-- The variants of Go's `Expr` interface that have a `TypeWith` method in
`typecheck.go`. `LambdaExpr`, `Pi` and `App` are used through pointers in Go
(`*LambdaExpr`, `*Pi`, `*App`); the others are values. `double`, `boolean`,
`natural`, `integer`, `list` are the types whose only values are the Go
variables `Double`, `Bool`, `Natural`, `Integer`, `List`. A `DoubleLit` is
kept as the IEEE-754 bit pattern of its `float64`. Go's field `Type` is
written `Type_`, and the fields of `Annot` are `Expr_` and `Ann`. -/
inductive Expr where
  | Const (c : Const)
  | Var (v : Var)
  | LambdaExpr (Label : String) (Type_ : Expr) (Body : Expr)
  | Pi (Label : String) (Type_ : Expr) (Body : Expr)
  | App (Fn : Expr) (Arg : Expr)
  | Annot (Expr_ : Expr) (Ann : Expr)
  | double
  | DoubleLit (bits : Nat)
  | boolean
  | BoolLit (b : Bool)
  | natural
  | NaturalLit (n : Nat)
  | NaturalPlus (L : Expr) (R : Expr)
  | integer
  | IntegerLit (i : Int)
  | list
  | EmptyList (Type_ : Expr)
  | NonEmptyList (l : Exprs)
  deriving DecidableEq
/-- Go slice `[]Expr`, the representation of `NonEmptyList`. -/
inductive Exprs where
  | nil
  | cons (e : Expr) (es : Exprs)
  deriving DecidableEq
end

/-- Go `NewLambdaExpr` (ast.go). -/
def NewLambdaExpr (arg : String) (argType : Expr) (body : Expr) : Expr :=
  .LambdaExpr arg argType body

/-- The universe `Type` as a term. -/
def Expr.cType : Expr := .Const Const.Type_

/-- The universe `Kind` as a term. -/
def Expr.cKind : Expr := .Const Const.Kind

/-- The universe `Sort` as a term. -/
def Expr.cSort : Expr := .Const Const.Sort_

/-- Build a Go slice from a Lean list. -/
def Exprs.ofList : List Expr → Exprs
  | [] => .nil
  | e :: es => .cons e (Exprs.ofList es)

/-- The slice holding the elements of `pre` followed by those of `rest`. -/
def Exprs.prepend (pre : List Expr) (rest : Exprs) : Exprs :=
  pre.foldr Exprs.cons rest

/-- The elements of a Go slice, in order. -/
def Exprs.toList : Exprs → List Expr
  | .nil => []
  | .cons e es => e :: es.toList

/-! ## Results -/

/-- The run-time panics the checker can raise. -/
inductive Panic where
  /-- A failed type assertion `x.(Const)`. -/
  | typeAssertion
  /-- A method call on a nil interface value. -/
  | nilDereference
  /-- An index expression `s[0]` on an empty slice. -/
  | indexOutOfRange
  /-- A slice expression `s[1:len(s)]` on an empty slice. -/
  | sliceBounds
  /-- A comparison `==` of two interface values that hold slices. -/
  | uncomparable
  deriving DecidableEq

/-- The errors built by `typecheck.go`. Each constructor stands for one
`errors.New` / `fmt.Errorf` call and carries the terms the message is
formatted from; the rendering of terms (and, for an unbound variable, of the
context) is left out. `other` is for errors made by `Rule`. -/
inductive TypeError where
  | sortHasNoType
  | unboundVariable (name : String)
  | expectedFunctionType (tF : Expr)
  | typeMismatch
  | annotMismatch (inferred : Expr) (annotated : Expr)
  | cantAdd (t : Expr)
  | listAnnotNotType (t : Expr)
  | invalidListElemType
  | listElemMismatch (t : Expr) (t2 : Expr)
  | other (msg : String)
  deriving DecidableEq

/-- The literal text each error message starts with (up to its first
formatted argument). -/
def TypeError.text : TypeError → String
  | .sortHasNoType => "Sort has no type"
  | .unboundVariable name => "Unbound variable " ++ name
  | .expectedFunctionType _ => "Expected "
  | .typeMismatch => "type mismatch between lambda and applied value"
  | .annotMismatch _ _ => "Annotation mismatch: inferred type "
  | .cantAdd _ => "Expecting a Natural, can't add "
  | .listAnnotNotType _ => "List annotation "
  | .invalidListElemType => "Invalid type for List elements"
  | .listElemMismatch _ _ => "All List elements must have same type, but types "
  | .other msg => msg

/-- What a call returns: `ok t` is Go's `(t, nil)`, `error e` is `(nil, e)`,
and `fault p` is a panic. -/
inductive Res where
  | ok (t : Expr)
  | error (e : TypeError)
  | fault (p : Panic)
  deriving DecidableEq

/-- The functions that `typecheck.go` calls and that are defined elsewhere:
`Shift(d, v, e)`, `Subst(v, a, e)` and `Rule(kA, kB)`. `Rule` is taken to
return a type with a nil error, or a nil type with an error, as every `return`
of typecheck.go does. `NormalizeReduct(e)` is the call of `Normalize` on the
term `e` that the reduction of an application has produced: `e` is not a
sub-term of the application, so inside the total function `Normalize` this call
is taken as given (`NormalizeFuel` spells it out). -/
structure Prims where
  Shift : Int → Var → Expr → Expr
  Subst : Var → Expr → Expr → Expr
  Rule : Const → Const → Res
  NormalizeReduct : Expr → Expr

/-! ## Contexts -/

/-- Go `type TypeContext map[string][]Expr`, as the stack held under each
name. A name that is not a key of the Go map has the empty stack: the map is
only ever read through `(*ctx)[name]`, which gives the nil slice for a missing
key, and through `Lookup`. -/
abbrev TypeContext := String → List Expr

/-- Go `EmptyContext` (ast.go): the map with no keys. -/
def EmptyContext : TypeContext := fun _ => []

/-- Modelled from the spec: `TypeContext.Lookup` is called by `Var.TypeWith`
but not defined in the files at hand. It returns the type at position `index`
of the stack of `name` (0 the most recently pushed), or not-found. -/
def Lookup (ctx : TypeContext) (name : String) (index : Nat) : Option Expr :=
  (ctx name)[index]?

/-- Modelled from the spec: `TypeContext.Insert` is called by
`LambdaExpr.TypeWith` but not defined in the files at hand. It returns a new
context with `t` pushed on the stack of `name`. -/
def Insert (ctx : TypeContext) (name : String) (t : Expr) : TypeContext :=
  fun n => if n = name then t :: ctx n else ctx n

/-- Modelled from the spec: `TypeContext.Map` is called by
`LambdaExpr.TypeWith` but not defined in the files at hand. It returns a new
context with `f` applied to every stored type. -/
def Map (f : Expr → Expr) (ctx : TypeContext) : TypeContext :=
  fun n => (ctx n).map f

/-- The in-place update `(*ctx)[name] = s`. -/
def setStack (ctx : TypeContext) (name : String) (s : List Expr) : TypeContext :=
  fun n => if n = name then s else ctx n

/-! ## Equality and normalization -/

/-- Whether a `float64` bit pattern is a NaN. -/
def float64IsNaN (bits : Nat) : Bool :=
  decide ((bits / 2 ^ 52) % 2 ^ 11 = 2047) && decide (bits % 2 ^ 52 ≠ 0)

/-- Go `==` on two `float64` values given by their bit patterns: a NaN equals
nothing, and the two zeros are equal. -/
def float64Eq (a b : Nat) : Bool :=
  !float64IsNaN a && !float64IsNaN b &&
    (decide (a = b) || (decide (a % 2 ^ 63 = 0) && decide (b % 2 ^ 63 = 0)))

mutual
/-- Go `reflect.DeepEqual` on two `Expr` values: the dynamic types must be the
same, pointers are followed, structs are compared field by field, slices
element by element, and numbers, strings and booleans with `==`. -/
def deepEqual : Expr → Expr → Bool
  | .Const a, .Const b => decide (a = b)
  | .Var a, .Var b => decide (a = b)
  | .LambdaExpr l t b, .LambdaExpr l2 t2 b2 =>
      decide (l = l2) && deepEqual t t2 && deepEqual b b2
  | .Pi l t b, .Pi l2 t2 b2 =>
      decide (l = l2) && deepEqual t t2 && deepEqual b b2
  | .App f a, .App f2 a2 => deepEqual f f2 && deepEqual a a2
  | .Annot e a, .Annot e2 a2 => deepEqual e e2 && deepEqual a a2
  | .double, .double => true
  | .DoubleLit a, .DoubleLit b => float64Eq a b
  | .boolean, .boolean => true
  | .BoolLit a, .BoolLit b => decide (a = b)
  | .natural, .natural => true
  | .NaturalLit a, .NaturalLit b => decide (a = b)
  | .NaturalPlus l r, .NaturalPlus l2 r2 => deepEqual l l2 && deepEqual r r2
  | .integer, .integer => true
  | .IntegerLit a, .IntegerLit b => decide (a = b)
  | .list, .list => true
  | .EmptyList t, .EmptyList t2 => deepEqual t t2
  | .NonEmptyList l, .NonEmptyList l2 => deepEqualList l l2
  | _, _ => false
/-- Go `reflect.DeepEqual` on the elements of two slices. -/
def deepEqualList : Exprs → Exprs → Bool
  | .nil, .nil => true
  | .cons a as, .cons b bs => deepEqual a b && deepEqualList as bs
  | _, _ => false
end

/-- Go `==` on two interface values of type `Expr`, as `App.TypeWith` uses it
on the domain of a freshly normalized `Pi` and the type of the argument; `none`
is the run-time panic raised when both hold a slice (`NonEmptyList`). Values
of different dynamic types are unequal. Struct values (`Annot`, `NaturalPlus`,
`EmptyList`) are compared field by field, stopping at the first difference. A
`DoubleLit` is compared as a `float64`. For the pointer variants
(`*LambdaExpr`, `*Pi`, `*App`) Go compares addresses: normalization builds new
terms, so a pointer on the left of this comparison is never the address of
the term on the right, and the two are unequal. -/
def interfaceEq : Expr → Expr → Option Bool
  | .Annot e a, .Annot e2 a2 =>
      match interfaceEq e e2 with
      | some true => interfaceEq a a2
      | r => r
  | .NaturalPlus l r, .NaturalPlus l2 r2 =>
      match interfaceEq l l2 with
      | some true => interfaceEq r r2
      | r => r
  | .EmptyList t, .EmptyList t2 => interfaceEq t t2
  | .NonEmptyList _, .NonEmptyList _ => none
  | .LambdaExpr _ _ _, .LambdaExpr _ _ _ => some false
  | .Pi _ _ _, .Pi _ _ _ => some false
  | .App _ _, .App _ _ => some false
  | .DoubleLit x, .DoubleLit y => some (float64Eq x y)
  | a, b => some (decide (a = b))

mutual
/-- Modelled from the spec: `Normalize` for the variants other than `Const`,
`Var` and `LambdaExpr` is not in the files at hand. The cases `Const`, `Var`
and `LambdaExpr` are the three methods of ast.go. For the others the spec
(§4.3) is followed: sub-terms are normalized first; an application whose
normalized function is a `LambdaExpr` reduces to the body with the argument
shifted +1, substituted for the bound variable, and the result shifted -1, and
that result is brought to normal form (`P.NormalizeReduct`); `NaturalPlus` of
two literals is the literal of their sum; every other variant normalizes its
fields pointwise. -/
def Normalize (P : Prims) : Expr → Expr
  | .Const c => .Const c
  | .Var v => .Var v
  | .LambdaExpr l t b => .LambdaExpr l (Normalize P t) (Normalize P b)
  | .Pi l t b => .Pi l (Normalize P t) (Normalize P b)
  | .App f a =>
      match Normalize P f with
      | .LambdaExpr l _ b =>
          P.NormalizeReduct
            (P.Shift (-1) ⟨l, 0⟩ (P.Subst ⟨l, 0⟩ (P.Shift 1 ⟨l, 0⟩ (Normalize P a)) b))
      | f2 => .App f2 (Normalize P a)
  | .Annot e a => .Annot (Normalize P e) (Normalize P a)
  | .double => .double
  | .DoubleLit x => .DoubleLit x
  | .boolean => .boolean
  | .BoolLit b => .BoolLit b
  | .natural => .natural
  | .NaturalLit n => .NaturalLit n
  | .NaturalPlus l r =>
      match Normalize P l, Normalize P r with
      | .NaturalLit m, .NaturalLit n => .NaturalLit (m + n)
      | l2, r2 => .NaturalPlus l2 r2
  | .integer => .integer
  | .IntegerLit i => .IntegerLit i
  | .list => .list
  | .EmptyList t => .EmptyList (Normalize P t)
  | .NonEmptyList l => .NonEmptyList (NormalizeList P l)
/-- Normalize every element of a slice (see `Normalize`). -/
def NormalizeList (P : Prims) : Exprs → Exprs
  | .nil => .nil
  | .cons e es => .cons (Normalize P e) (NormalizeList P es)
end

/-- Go `judgmentallyEqual` (typecheck.go): normalize both terms and compare the
results with `reflect.DeepEqual`. -/
def judgmentallyEqual (P : Prims) (e1 e2 : Expr) : Bool :=
  deepEqual (Normalize P e1) (Normalize P e2)

/-- Normalize every element of a slice with `call`; there is no result when one
of the calls has none. -/
def normalizeAll (call : Expr → Option Expr) : Exprs → Option Exprs
  | .nil => some .nil
  | .cons e es =>
      (call e).bind fun e2 => (normalizeAll call es).bind fun es2 => some (.cons e2 es2)

/-- Modelled from the spec: `Normalize` for the variants other than `Const`,
`Var` and `LambdaExpr` is not in the files at hand. One level of the
`Normalize` methods, with `call` standing for the recursive calls; a call that
does not return has no result. The cases `Const`, `Var` and `LambdaExpr` are
the three methods of ast.go. For the others the spec (§4.3) is followed:
sub-terms are normalized first; an application whose normalized function is a
`LambdaExpr` is reduced (the argument shifted +1, substituted for the bound
variable, the result shifted -1) and the term so produced is normalized in
turn, so that the result is a normal form; `NaturalPlus` of two literals is the
literal of their sum; every other variant normalizes its fields pointwise. -/
def NormalizeStep (P : Prims) (call : Expr → Option Expr) : Expr → Option Expr
  | .Const c => some (.Const c)
  | .Var v => some (.Var v)
  | .LambdaExpr l t b =>
      (call t).bind fun t2 => (call b).bind fun b2 => some (.LambdaExpr l t2 b2)
  | .Pi l t b =>
      (call t).bind fun t2 => (call b).bind fun b2 => some (.Pi l t2 b2)
  | .App f a =>
      (call f).bind fun f2 => (call a).bind fun a2 =>
        match f2 with
        | .LambdaExpr l _ b =>
            call (P.Shift (-1) ⟨l, 0⟩ (P.Subst ⟨l, 0⟩ (P.Shift 1 ⟨l, 0⟩ a2) b))
        | _ => some (.App f2 a2)
  | .Annot e a =>
      (call e).bind fun e2 => (call a).bind fun a2 => some (.Annot e2 a2)
  | .double => some .double
  | .DoubleLit x => some (.DoubleLit x)
  | .boolean => some .boolean
  | .BoolLit b => some (.BoolLit b)
  | .natural => some .natural
  | .NaturalLit n => some (.NaturalLit n)
  | .NaturalPlus l r =>
      (call l).bind fun l2 => (call r).bind fun r2 =>
        match l2, r2 with
        | .NaturalLit m, .NaturalLit n => some (.NaturalLit (m + n))
        | _, _ => some (.NaturalPlus l2 r2)
  | .integer => some .integer
  | .IntegerLit i => some (.IntegerLit i)
  | .list => some .list
  | .EmptyList t => (call t).bind fun t2 => some (.EmptyList t2)
  | .NonEmptyList l => (normalizeAll call l).bind fun l2 => some (.NonEmptyList l2)

/-- The method `Normalize` of every variant, run with a bound on the depth of
nested calls: `none` when the bound is reached. -/
def NormalizeFuel (P : Prims) : Nat → Expr → Option Expr
  | 0 => fun _ => none
  | fuel + 1 => NormalizeStep P (NormalizeFuel P fuel)

/-- The call `t.Normalize()` returns `r`. -/
def NormalizesTo (P : Prims) (t r : Expr) : Prop :=
  ∃ fuel, NormalizeFuel P fuel t = some r

/-! ## The type checker -/

/-- What a bounded run of a call gives: `none` when the fuel ran out, else the
result and the context as the call left it. -/
abbrev Outcome := Option (Res × TypeContext)

/-- The Go idiom `t, err := ...; if err != nil { return nil, err }`: continue
with the type and the context when the call returned a type, and pass on an
error or a panic. -/
def andThen (o : Outcome) (k : Expr → TypeContext → Outcome) : Outcome :=
  match o with
  | none => none
  | some (.ok t, ctx) => k t ctx
  | some (.error e, ctx) => some (.error e, ctx)
  | some (.fault p, ctx) => some (.fault p, ctx)

/-- The outcome of a call that worked on a context of its own, seen from the
caller whose context is `ctx`. -/
def onCtx (o : Outcome) (ctx : TypeContext) : Outcome :=
  match o with
  | none => none
  | some (r, _) => some (r, ctx)

/-- Go `Const.TypeWith` (typecheck.go, and the same body in ast.go). -/
def Const.TypeWith (c : Const) : Res :=
  if c = Const.Type_ then .ok (.Const Const.Kind)
  else if c = Const.Kind then .ok (.Const Const.Sort_)
  else .error .sortHasNoType

/-- Go `Var.TypeWith` (typecheck.go): `ctx.Lookup(v.Name, 0)`. -/
def Var.TypeWith (v : Var) (ctx : TypeContext) : Res :=
  match Lookup ctx v.Name 0 with
  | some t => .ok t
  | none => .error (.unboundVariable v.Name)

/-- The loop of `NonEmptyList.TypeWith` over `exprs[1:]`, and the `return`
that follows it; `t` is the type of the first element and `call` is the
recursive `TypeWith`. -/
def listLoop (P : Prims) (call : Expr → TypeContext → Outcome) (t : Expr) :
    Exprs → TypeContext → Outcome
  | .nil, ctx => some (.ok (.App .list t), ctx)
  | .cons elem rest, ctx =>
      andThen (call elem ctx) fun t2 ctx1 =>
        if judgmentallyEqual P t t2 then listLoop P call t rest ctx1
        else some (.error (.listElemMismatch t t2), ctx1)

/-- One level of the `TypeWith` methods of typecheck.go, with `call` standing
for the recursive calls. -/
def TypeWithStep (P : Prims) (call : Expr → TypeContext → Outcome) :
    Expr → TypeContext → Outcome
  | .Const c, ctx => some (c.TypeWith, ctx)
  | .Var v, ctx => some (v.TypeWith ctx, ctx)
  | .LambdaExpr label ty body, ctx =>
      andThen (call ty ctx) fun _ ctx1 =>
        let argType := Normalize P ty
        let newctx := Map (fun e => P.Shift 1 ⟨label, 0⟩ e) (Insert ctx1 label argType)
        andThen (onCtx (call body newctx) ctx1) fun bodyType ctx2 =>
          let p := Expr.Pi label argType bodyType
          andThen (call p ctx2) fun _ ctx3 => some (.ok p, ctx3)
  | .Pi label ty body, ctx =>
      andThen (call ty ctx) fun argType ctx1 =>
        match Normalize P argType with
        | .Const kA =>
            let ctx2 := setStack ctx1 label (Normalize P ty :: ctx1 label)
            andThen (call body ctx2) fun bodyType ctx3 =>
              match Normalize P bodyType with
              | .Const kB =>
                  match ctx3 label with
                  | [] => some (.fault .sliceBounds, ctx3)
                  | _ :: rest => some (P.Rule kA kB, setStack ctx3 label rest)
              | _ => some (.fault .typeAssertion, ctx3)
        | _ => some (.fault .typeAssertion, ctx1)
  | .App fn arg, ctx =>
      andThen (call fn ctx) fun fnType ctx1 =>
        match Normalize P fnType with
        | .Pi label ty body =>
            andThen (call arg ctx1) fun argType ctx2 =>
              match interfaceEq ty argType with
              | some true =>
                  let a := P.Shift 1 ⟨label, 0⟩ arg
                  let b := P.Subst ⟨label, 0⟩ a body
                  some (.ok (P.Shift (-1) ⟨label, 0⟩ b), ctx2)
              | some false => some (.error .typeMismatch, ctx2)
              | none => some (.fault .uncomparable, ctx2)
        | tF => some (.error (.expectedFunctionType tF), ctx1)
  | .Annot e ann, ctx =>
      andThen (call ann ctx) fun _ ctx1 =>
        andThen (call e ctx1) fun t2 ctx2 =>
          if judgmentallyEqual P ann t2 then some (.ok t2, ctx2)
          else some (.error (.annotMismatch t2 ann), ctx2)
  | .double, ctx => some (.ok .cType, ctx)
  | .DoubleLit _, ctx => some (.ok .double, ctx)
  | .boolean, ctx => some (.ok .cType, ctx)
  | .BoolLit _, ctx => some (.ok .boolean, ctx)
  | .natural, ctx => some (.ok .cType, ctx)
  | .NaturalLit _, ctx => some (.ok .natural, ctx)
  | .NaturalPlus l r, ctx =>
      andThen (call l ctx) fun tL ctx1 =>
        if Normalize P tL = .natural then
          andThen (call r ctx1) fun tR ctx2 =>
            if Normalize P tR = .natural then some (.ok .natural, ctx2)
            else some (.error (.cantAdd (Normalize P tR)), ctx2)
        else some (.error (.cantAdd (Normalize P tL)), ctx1)
  | .integer, ctx => some (.ok .cType, ctx)
  | .IntegerLit _, ctx => some (.ok .integer, ctx)
  | .list, ctx => some (.ok (.Pi "_" .cType .cType), ctx)
  | .EmptyList t, ctx =>
      andThen (call t ctx) fun k ctx1 =>
        if Normalize P k = .cType then some (.ok (.App .list t), ctx1)
        else some (.error (.listAnnotNotType t), ctx1)
  | .NonEmptyList .nil, ctx => some (.fault .indexOutOfRange, ctx)
  | .NonEmptyList (.cons e0 rest), ctx =>
      andThen (call e0 ctx) fun t ctx1 =>
        match call t ctx1 with
        | none => none
        | some (.ok k, ctx2) =>
            if Normalize P k = .cType then listLoop P call t rest ctx2
            else some (.error .invalidListElemType, ctx2)
        | some (.error _, ctx2) => some (.fault .nilDereference, ctx2)
        | some (.fault p, ctx2) => some (.fault p, ctx2)

/-- The method `TypeWith` of every variant, run with a bound on the depth of
nested calls: `none` when the bound is reached. -/
def TypeWith (P : Prims) : Nat → Expr → TypeContext → Outcome
  | 0 => fun _ _ => none
  | fuel + 1 => TypeWithStep P (TypeWith P fuel)

/-- The result of a bounded run, without the context. -/
def resultOf (o : Outcome) : Option Res := o.map Prod.fst

/-- The call `e.TypeWith(ctx)` returns `r` and leaves the context as `ctx2`. -/
def Returns (P : Prims) (e : Expr) (ctx : TypeContext) (r : Res)
    (ctx2 : TypeContext) : Prop :=
  ∃ fuel, TypeWith P fuel e ctx = some (r, ctx2)

/-- Go `type TypeContext *map[string][]Expr` of ast.go, where a key can be
present with an empty stack. -/
abbrev AstContext := String → Option (List Expr)

/-- Go `EmptyContext` with the context type of ast.go. -/
def AstContext.empty : AstContext := fun _ => none

/-- Go `Var.TypeWith` as written in ast.go:
`if t, ok := (*ctx)[v.Name]; ok { return t[0], nil }`. -/
def Var.TypeWithAst (v : Var) (ctx : AstContext) : Res :=
  match ctx v.Name with
  | some (t :: _) => .ok t
  | some [] => .fault .indexOutOfRange
  | none => .error (.unboundVariable v.Name)

/-! ## One choice of the outside functions, for running the checker -/

mutual
/-- Modelled from the spec: `Shift` is called by `typecheck.go` but not defined
in the files at hand. Add `d` to the index of every free occurrence of the
variable named `v.Name` whose index is at least `v.Index`; under a binder of
the same name the threshold is one more (§4.2). -/
def shiftRef (d : Int) : Var → Expr → Expr
  | v, .Var w =>
      if w.Name = v.Name ∧ v.Index ≤ w.Index then .Var ⟨w.Name, w.Index + d⟩ else .Var w
  | v, .LambdaExpr l t b =>
      .LambdaExpr l (shiftRef d v t)
        (shiftRef d (if l = v.Name then ⟨v.Name, v.Index + 1⟩ else v) b)
  | v, .Pi l t b =>
      .Pi l (shiftRef d v t)
        (shiftRef d (if l = v.Name then ⟨v.Name, v.Index + 1⟩ else v) b)
  | v, .App f a => .App (shiftRef d v f) (shiftRef d v a)
  | v, .Annot e a => .Annot (shiftRef d v e) (shiftRef d v a)
  | v, .NaturalPlus l r => .NaturalPlus (shiftRef d v l) (shiftRef d v r)
  | v, .EmptyList t => .EmptyList (shiftRef d v t)
  | v, .NonEmptyList l => .NonEmptyList (shiftRefList d v l)
  | _, .Const c => .Const c
  | _, .double => .double
  | _, .DoubleLit x => .DoubleLit x
  | _, .boolean => .boolean
  | _, .BoolLit b => .BoolLit b
  | _, .natural => .natural
  | _, .NaturalLit n => .NaturalLit n
  | _, .integer => .integer
  | _, .IntegerLit i => .IntegerLit i
  | _, .list => .list
/-- Shift every element of a slice (see `shiftRef`). -/
def shiftRefList (d : Int) : Var → Exprs → Exprs
  | _, .nil => .nil
  | v, .cons e es => .cons (shiftRef d v e) (shiftRefList d v es)
end

mutual
/-- Modelled from the spec: `Subst` is called by `typecheck.go` but not defined
in the files at hand. Replace every free occurrence of the variable `v` by
`a`; under a binder the replacement is shifted by +1 for the bound name, and
under a binder of the same name as `v` the index looked for is one more
(§4.2). -/
def substRef : Var → Expr → Expr → Expr
  | v, a, .Var w => if w = v then a else .Var w
  | v, a, .LambdaExpr l t b =>
      .LambdaExpr l (substRef v a t)
        (substRef (if l = v.Name then ⟨v.Name, v.Index + 1⟩ else v) (shiftRef 1 ⟨l, 0⟩ a) b)
  | v, a, .Pi l t b =>
      .Pi l (substRef v a t)
        (substRef (if l = v.Name then ⟨v.Name, v.Index + 1⟩ else v) (shiftRef 1 ⟨l, 0⟩ a) b)
  | v, a, .App f x => .App (substRef v a f) (substRef v a x)
  | v, a, .Annot e x => .Annot (substRef v a e) (substRef v a x)
  | v, a, .NaturalPlus l r => .NaturalPlus (substRef v a l) (substRef v a r)
  | v, a, .EmptyList t => .EmptyList (substRef v a t)
  | v, a, .NonEmptyList l => .NonEmptyList (substRefList v a l)
  | _, _, .Const c => .Const c
  | _, _, .double => .double
  | _, _, .DoubleLit x => .DoubleLit x
  | _, _, .boolean => .boolean
  | _, _, .BoolLit b => .BoolLit b
  | _, _, .natural => .natural
  | _, _, .NaturalLit n => .NaturalLit n
  | _, _, .integer => .integer
  | _, _, .IntegerLit i => .IntegerLit i
  | _, _, .list => .list
/-- Substitute in every element of a slice (see `substRef`). -/
def substRefList : Var → Expr → Exprs → Exprs
  | _, _, .nil => .nil
  | v, a, .cons e es => .cons (substRef v a e) (substRefList v a es)
end

/-- Modelled from the spec: `Rule` is called by `Pi.TypeWith` but not defined in
the files at hand. The spec fixes one entry of the table, `Type, Type ↦ Type`
(§4.5, §9); every other pair is rejected here. -/
def ruleRef (kA kB : Const) : Res :=
  if kA = Const.Type_ ∧ kB = Const.Type_ then .ok (.Const Const.Type_)
  else .error (.other "unsupported universe combination")

/-- The reference `Shift`, `Subst` and `Rule`, with the term a reduction has
produced left as it is. -/
def basePrims : Prims := ⟨shiftRef, substRef, ruleRef, fun e => e⟩

/-- The normalization of the term a reduction has produced, run with at most 64
nested calls (the term is left as it is when that is not enough). -/
def normalizeReductRef (e : Expr) : Expr :=
  (NormalizeFuel basePrims 64 e).getD e

/-- The outside functions used to run the checker on concrete terms. -/
def refPrims : Prims := ⟨shiftRef, substRef, ruleRef, normalizeReductRef⟩

/-! ## Concrete inputs -/

/-- The context holding the stack `[Natural, Bool]` under `x` and nothing
else. -/
def ctxAB : TypeContext := fun n => if n = "x" then [.natural, .boolean] else []

/-- The same context with the context type of ast.go. -/
def astCtxAB : AstContext := fun n => if n = "x" then some [.natural, .boolean] else none

/-- The term `(λ(a : Type) → a) Natural`, which is not in normal form and
normalizes to `Natural`. -/
def redexNat : Expr := .App (.LambdaExpr "a" .cType (.Var ⟨"a", 0⟩)) .natural

/-- The context holding `[(λ(a : Type) → a) Natural]` under `y` and nothing
else. -/
def ctxY : TypeContext := fun n => if n = "y" then [redexNat] else []

/-- The function `λ(x : Natural) → x`. -/
def idNat : Expr := .LambdaExpr "x" .natural (.Var ⟨"x", 0⟩)

/-- The term `(λ(x : ∀(y : Natural) → Natural) → x 1) (λ(y : Natural) → y)`. -/
def applyToId : Expr :=
  .App (.LambdaExpr "x" (.Pi "y" .natural .natural) (.App (.Var ⟨"x", 0⟩) (.NaturalLit 1)))
    (.LambdaExpr "y" .natural (.Var ⟨"y", 0⟩))

/-- The term `(λ(n : Natural) → n) 2`, which normalizes to `NaturalLit(2)`. -/
def redexTwo : Expr := .App (.LambdaExpr "n" .natural (.Var ⟨"n", 0⟩)) (.NaturalLit 2)

/-- The term `λ(x : Type) → x`, built from `LambdaExpr`, `Const` and `Var`. -/
def idCore : Expr := .LambdaExpr "x" .cType (.Var ⟨"x", 0⟩)

/-- The bit pattern `0x7FF8000000000000` of the `float64` quiet NaN. -/
def nanBits : Nat := 9221120237041090560

/-! ## Classes of terms -/

/-- Whether a term is a `*LambdaExpr`. -/
def isLambdaExpr : Expr → Bool
  | .LambdaExpr _ _ _ => true
  | _ => false

/-- Whether a term is built from `Const`, `Var` and `LambdaExpr` only, the
variants whose `Normalize` is in ast.go. -/
def coreTerm : Expr → Bool
  | .Const _ => true
  | .Var _ => true
  | .LambdaExpr _ t b => coreTerm t && coreTerm b
  | _ => false

/-- Whether a term is a `NaturalLit`. -/
def isNaturalLit : Expr → Bool
  | .NaturalLit _ => true
  | _ => false

mutual
/-- Whether a term is in normal form: no application inside it has a
`LambdaExpr` as function, and no `NaturalPlus` inside it has two literals as
operands. -/
def isNormal : Expr → Bool
  | .Const _ => true
  | .Var _ => true
  | .LambdaExpr _ t b => isNormal t && isNormal b
  | .Pi _ t b => isNormal t && isNormal b
  | .App f a => isNormal f && isNormal a && !isLambdaExpr f
  | .Annot e a => isNormal e && isNormal a
  | .double => true
  | .DoubleLit _ => true
  | .boolean => true
  | .BoolLit _ => true
  | .natural => true
  | .NaturalLit _ => true
  | .NaturalPlus l r => isNormal l && isNormal r && !(isNaturalLit l && isNaturalLit r)
  | .integer => true
  | .IntegerLit _ => true
  | .list => true
  | .EmptyList t => isNormal t
  | .NonEmptyList l => isNormalList l
/-- Whether every element of a slice is in normal form. -/
def isNormalList : Exprs → Bool
  | .nil => true
  | .cons e es => isNormal e && isNormalList es
end

mutual
/-- Whether no `DoubleLit` inside a term is a NaN. -/
def nanFree : Expr → Bool
  | .Const _ => true
  | .Var _ => true
  | .LambdaExpr _ t b => nanFree t && nanFree b
  | .Pi _ t b => nanFree t && nanFree b
  | .App f a => nanFree f && nanFree a
  | .Annot e a => nanFree e && nanFree a
  | .double => true
  | .DoubleLit x => !float64IsNaN x
  | .boolean => true
  | .BoolLit _ => true
  | .natural => true
  | .NaturalLit _ => true
  | .NaturalPlus l r => nanFree l && nanFree r
  | .integer => true
  | .IntegerLit _ => true
  | .list => true
  | .EmptyList t => nanFree t
  | .NonEmptyList l => nanFreeList l
/-- Whether no `DoubleLit` inside the elements of a slice is a NaN. -/
def nanFreeList : Exprs → Bool
  | .nil => true
  | .cons e es => nanFree e && nanFreeList es
end

/-- One bit pattern for each `float64` value that is not a NaN: the two zeros
share the pattern 0. -/
def canonFloat (bits : Nat) : Nat := if bits % 2 ^ 63 = 0 then 0 else bits

mutual
/-- A term with every `DoubleLit` replaced by the chosen pattern of its value
(`canonFloat`); two NaN-free terms are `reflect.DeepEqual` exactly when this
gives the same term for both. -/
def canon : Expr → Expr
  | .Const c => .Const c
  | .Var v => .Var v
  | .LambdaExpr l t b => .LambdaExpr l (canon t) (canon b)
  | .Pi l t b => .Pi l (canon t) (canon b)
  | .App f a => .App (canon f) (canon a)
  | .Annot e a => .Annot (canon e) (canon a)
  | .double => .double
  | .DoubleLit x => .DoubleLit (canonFloat x)
  | .boolean => .boolean
  | .BoolLit b => .BoolLit b
  | .natural => .natural
  | .NaturalLit n => .NaturalLit n
  | .NaturalPlus l r => .NaturalPlus (canon l) (canon r)
  | .integer => .integer
  | .IntegerLit i => .IntegerLit i
  | .list => .list
  | .EmptyList t => .EmptyList (canon t)
  | .NonEmptyList l => .NonEmptyList (canonList l)
/-- The elements of a slice, each with its `DoubleLit`s replaced (see
`canon`). -/
def canonList : Exprs → Exprs
  | .nil => .nil
  | .cons e es => .cons (canon e) (canonList es)
end

/-! ## General facts about the checker -/

theorem andThen_ok (t : Expr) (ctx : TypeContext)
    (k : Expr → TypeContext → Outcome) :
    andThen (some (.ok t, ctx)) k = k t ctx := rfl

theorem andThen_error (e : TypeError) (ctx : TypeContext)
    (k : Expr → TypeContext → Outcome) :
    andThen (some (.error e, ctx)) k = some (.error e, ctx) := rfl

theorem andThen_fault (p : Panic) (ctx : TypeContext)
    (k : Expr → TypeContext → Outcome) :
    andThen (some (.fault p, ctx)) k = some (.fault p, ctx) := rfl

/-- A call sequenced with `andThen` returns a type only if the first call did
and the continuation did. -/
theorem andThen_eq_ok {o : Outcome} {k : Expr → TypeContext → Outcome}
    {t : Expr} {c : TypeContext} (h : andThen o k = some (.ok t, c)) :
    ∃ t0 c0, o = some (.ok t0, c0) ∧ k t0 c0 = some (.ok t, c) := by
  rcases o with _ | ⟨r, c0⟩
  · simp [andThen] at h
  · cases r with
    | ok t0 => exact ⟨t0, c0, rfl, h⟩
    | error e => simp [andThen] at h
    | fault p => simp [andThen] at h

/-- Replacing the first call and the continuation by ones that return whenever
the original ones do keeps every result of `andThen`. -/
theorem andThen_mono {o o2 : Outcome} {k k2 : Expr → TypeContext → Outcome}
    (ho : ∀ x, o = some x → o2 = some x)
    (hk : ∀ t c x, k t c = some x → k2 t c = some x)
    {x : Res × TypeContext} (h : andThen o k = some x) : andThen o2 k2 = some x := by
  rcases o with _ | ⟨r, c0⟩
  · simp [andThen] at h
  · rw [ho _ rfl]
    cases r with
    | ok t0 => exact hk _ _ _ h
    | error e => exact h
    | fault p => exact h

theorem onCtx_mono {o o2 : Outcome} (ho : ∀ x, o = some x → o2 = some x)
    (ctx : TypeContext) {x : Res × TypeContext} (h : onCtx o ctx = some x) :
    onCtx o2 ctx = some x := by
  rcases o with _ | ⟨r, c0⟩
  · simp [onCtx] at h
  · rw [ho _ rfl]; exact h

theorem listLoop_mono (P : Prims) {call call2 : Expr → TypeContext → Outcome}
    (hc : ∀ e c x, call e c = some x → call2 e c = some x) (t : Expr) :
    ∀ (l : Exprs) (ctx : TypeContext) (x : Res × TypeContext),
      listLoop P call t l ctx = some x → listLoop P call2 t l ctx = some x
  | .nil, ctx, x, h => by simpa [listLoop] using h
  | .cons elem rest, ctx, x, h => by
      simp only [listLoop] at h ⊢
      refine andThen_mono (hc _ _) ?_ h
      intro t2 c1 y hy
      by_cases hj : judgmentallyEqual P t t2 = true
      · simp only [hj, if_true] at hy ⊢
        exact listLoop_mono P hc t rest c1 y hy
      · simpa [hj] using hy

/-- One level of the checker keeps its results when the recursive calls are
replaced by calls that return whenever the original ones do. -/
theorem TypeWithStep_mono (P : Prims) {call call2 : Expr → TypeContext → Outcome}
    (hc : ∀ e c x, call e c = some x → call2 e c = some x)
    (e : Expr) (ctx : TypeContext) (x : Res × TypeContext)
    (h : TypeWithStep P call e ctx = some x) : TypeWithStep P call2 e ctx = some x := by
  cases e with
  | Const c => simpa [TypeWithStep] using h
  | Var v => simpa [TypeWithStep] using h
  | LambdaExpr label ty body =>
      simp only [TypeWithStep] at h ⊢
      refine andThen_mono (hc _ _) ?_ h
      intro _ c1 y hy
      refine andThen_mono (fun z hz => onCtx_mono (hc _ _) _ hz) ?_ hy
      intro bt c2 z hz
      exact andThen_mono (hc _ _) (fun _ _ _ hw => hw) hz
  | Pi label ty body =>
      simp only [TypeWithStep] at h ⊢
      refine andThen_mono (hc _ _) ?_ h
      intro at1 c1 y hy
      split at hy
      · exact andThen_mono (hc _ _) (fun _ _ _ hw => hw) hy
      · exact hy
  | App fn arg =>
      simp only [TypeWithStep] at h ⊢
      refine andThen_mono (hc _ _) ?_ h
      intro ft c1 y hy
      split at hy
      · exact andThen_mono (hc _ _) (fun _ _ _ hw => hw) hy
      · exact hy
  | Annot e ann =>
      simp only [TypeWithStep] at h ⊢
      refine andThen_mono (hc _ _) ?_ h
      intro _ c1 y hy
      exact andThen_mono (hc _ _) (fun _ _ _ hw => hw) hy
  | double => simpa [TypeWithStep] using h
  | DoubleLit b => simpa [TypeWithStep] using h
  | boolean => simpa [TypeWithStep] using h
  | BoolLit b => simpa [TypeWithStep] using h
  | natural => simpa [TypeWithStep] using h
  | NaturalLit n => simpa [TypeWithStep] using h
  | NaturalPlus l r =>
      simp only [TypeWithStep] at h ⊢
      refine andThen_mono (hc _ _) ?_ h
      intro tL c1 y hy
      by_cases hn : Normalize P tL = .natural
      · simp only [hn, if_true] at hy ⊢
        exact andThen_mono (hc _ _) (fun _ _ _ hw => hw) hy
      · simpa [hn] using hy
  | integer => simpa [TypeWithStep] using h
  | IntegerLit i => simpa [TypeWithStep] using h
  | list => simpa [TypeWithStep] using h
  | EmptyList t =>
      simp only [TypeWithStep] at h ⊢
      exact andThen_mono (hc _ _) (fun _ _ _ hw => hw) h
  | NonEmptyList l =>
      cases l with
      | nil => simpa [TypeWithStep] using h
      | cons e0 rest =>
          simp only [TypeWithStep] at h ⊢
          refine andThen_mono (hc _ _) ?_ h
          intro t c1 y hy
          rcases hct : call t c1 with _ | ⟨r, c2⟩
          · simp [hct] at hy
          · rw [hct] at hy
            rw [hc _ _ _ hct]
            cases r with
            | ok k =>
                simp only at hy ⊢
                split at hy
                · rename_i hk
                  simp only [hk, if_true]
                  exact listLoop_mono P hc t rest c2 y hy
                · rename_i hk
                  simpa [hk] using hy
            | error e => exact hy
            | fault p => exact hy

/-- More fuel does not change a result already reached. -/
theorem TypeWith_succ (P : Prims) :
    ∀ (n : Nat) (e : Expr) (ctx : TypeContext) (x : Res × TypeContext),
      TypeWith P n e ctx = some x → TypeWith P (n + 1) e ctx = some x
  | 0, _, _, _, h => by simp [TypeWith] at h
  | n + 1, e, ctx, x, h => by
      simp only [TypeWith] at h ⊢
      exact TypeWithStep_mono P (TypeWith_succ P n) e ctx x h

theorem TypeWith_mono (P : Prims) {n m : Nat} (hnm : n ≤ m) {e : Expr}
    {ctx : TypeContext} {x : Res × TypeContext} (h : TypeWith P n e ctx = some x) :
    TypeWith P m e ctx = some x := by
  induction hnm with
  | refl => exact h
  | step _ ih => exact TypeWith_succ P _ _ _ _ ih

/-- A call has at most one result, whatever the fuel. -/
theorem Returns_unique (P : Prims) {e : Expr} {ctx c1 c2 : TypeContext} {r1 r2 : Res}
    (h1 : Returns P e ctx r1 c1) (h2 : Returns P e ctx r2 c2) : r1 = r2 ∧ c1 = c2 := by
  obtain ⟨n, hn⟩ := h1
  obtain ⟨m, hm⟩ := h2
  have a := TypeWith_mono P (Nat.le_max_left n m) hn
  have b := TypeWith_mono P (Nat.le_max_right n m) hm
  rw [a] at b
  simpa using b

theorem setStack_setStack_self (ctx : TypeContext) (name : String) (s : List Expr) :
    setStack (setStack ctx name s) name (ctx name) = ctx := by
  funext n
  by_cases h : n = name
  · simp [setStack, h]
  · simp [setStack, h]

theorem onCtx_eq_some {o : Outcome} {ctx : TypeContext} {r : Res} {c : TypeContext}
    (h : onCtx o ctx = some (r, c)) : c = ctx ∧ ∃ c0, o = some (r, c0) := by
  rcases o with _ | ⟨r0, c0⟩
  · simp [onCtx] at h
  · simp only [onCtx, Option.some.injEq, Prod.mk.injEq] at h
    exact ⟨h.2.symm, c0, by rw [h.1]⟩

theorem listLoop_ok_ctx (P : Prims) {call : Expr → TypeContext → Outcome}
    (hc : ∀ e c t c2, call e c = some (.ok t, c2) → c2 = c) (t : Expr) :
    ∀ (l : Exprs) (ctx : TypeContext) (r : Expr) (c2 : TypeContext),
      listLoop P call t l ctx = some (.ok r, c2) → c2 = ctx ∧ r = .App .list t
  | .nil, ctx, r, c2, h => by
      simp only [listLoop, Option.some.injEq, Prod.mk.injEq, Res.ok.injEq] at h
      exact ⟨h.2.symm, h.1.symm⟩
  | .cons elem rest, ctx, r, c2, h => by
      simp only [listLoop] at h
      obtain ⟨t2, c1, h1, h2⟩ := andThen_eq_ok h
      have e1 := hc _ _ _ _ h1
      subst e1
      by_cases hj : judgmentallyEqual P t t2 = true
      · simp only [hj, if_true] at h2
        exact listLoop_ok_ctx P hc t rest _ r c2 h2
      · simp [hj] at h2

/-- One level of the checker leaves the context as it found it whenever it
returns a type, if the recursive calls do. -/
theorem TypeWithStep_ok_ctx (P : Prims) {call : Expr → TypeContext → Outcome}
    (hc : ∀ e c t c2, call e c = some (.ok t, c2) → c2 = c)
    (e : Expr) (ctx : TypeContext) (t : Expr) (c2 : TypeContext)
    (h : TypeWithStep P call e ctx = some (.ok t, c2)) : c2 = ctx := by
  cases e with
  | Const c => simp only [TypeWithStep, Option.some.injEq, Prod.mk.injEq] at h; exact h.2.symm
  | Var v => simp only [TypeWithStep, Option.some.injEq, Prod.mk.injEq] at h; exact h.2.symm
  | LambdaExpr label ty body =>
      simp only [TypeWithStep] at h
      obtain ⟨t0, c0, h0, h1⟩ := andThen_eq_ok h
      obtain ⟨bt, c1, h2, h3⟩ := andThen_eq_ok h1
      obtain ⟨_, c3, h4, h5⟩ := andThen_eq_ok h3
      simp only [Option.some.injEq, Prod.mk.injEq] at h5
      have e0 := hc _ _ _ _ h0
      have e1 := (onCtx_eq_some h2).1
      have e3 := hc _ _ _ _ h4
      rw [← h5.2, e3, e1, e0]
  | Pi label ty body =>
      simp only [TypeWithStep] at h
      obtain ⟨t0, c0, h0, h1⟩ := andThen_eq_ok h
      have e0 := hc _ _ _ _ h0
      subst e0
      split at h1
      · obtain ⟨bt, c3, h2, h3⟩ := andThen_eq_ok h1
        have e3 := hc _ _ _ _ h2
        subst e3
        split at h3
        · simp only [setStack, if_true] at h3
          simp only [Option.some.injEq, Prod.mk.injEq] at h3
          rw [← h3.2]
          exact setStack_setStack_self _ _ _
        · simp at h3
      · simp at h1
  | App fn arg =>
      simp only [TypeWithStep] at h
      obtain ⟨t0, c0, h0, h1⟩ := andThen_eq_ok h
      have e0 := hc _ _ _ _ h0
      subst e0
      split at h1
      · obtain ⟨at1, c3, h2, h3⟩ := andThen_eq_ok h1
        have e3 := hc _ _ _ _ h2
        subst e3
        split at h3
        · simp only [Option.some.injEq, Prod.mk.injEq] at h3; exact h3.2.symm
        · simp at h3
        · simp at h3
      · simp at h1
  | Annot e ann =>
      simp only [TypeWithStep] at h
      obtain ⟨t0, c0, h0, h1⟩ := andThen_eq_ok h
      obtain ⟨t2, c1, h2, h3⟩ := andThen_eq_ok h1
      have e0 := hc _ _ _ _ h0
      have e1 := hc _ _ _ _ h2
      subst e0
      subst e1
      split at h3
      · simp only [Option.some.injEq, Prod.mk.injEq] at h3; exact h3.2.symm
      · simp at h3
  | double => simp only [TypeWithStep, Option.some.injEq, Prod.mk.injEq] at h; exact h.2.symm
  | DoubleLit b => simp only [TypeWithStep, Option.some.injEq, Prod.mk.injEq] at h; exact h.2.symm
  | boolean => simp only [TypeWithStep, Option.some.injEq, Prod.mk.injEq] at h; exact h.2.symm
  | BoolLit b => simp only [TypeWithStep, Option.some.injEq, Prod.mk.injEq] at h; exact h.2.symm
  | natural => simp only [TypeWithStep, Option.some.injEq, Prod.mk.injEq] at h; exact h.2.symm
  | NaturalLit n => simp only [TypeWithStep, Option.some.injEq, Prod.mk.injEq] at h; exact h.2.symm
  | NaturalPlus l r =>
      simp only [TypeWithStep] at h
      obtain ⟨t0, c0, h0, h1⟩ := andThen_eq_ok h
      have e0 := hc _ _ _ _ h0
      subst e0
      split at h1
      · obtain ⟨t2, c1, h2, h3⟩ := andThen_eq_ok h1
        have e1 := hc _ _ _ _ h2
        subst e1
        split at h3
        · simp only [Option.some.injEq, Prod.mk.injEq] at h3; exact h3.2.symm
        · simp at h3
      · simp at h1
  | integer => simp only [TypeWithStep, Option.some.injEq, Prod.mk.injEq] at h; exact h.2.symm
  | IntegerLit i => simp only [TypeWithStep, Option.some.injEq, Prod.mk.injEq] at h; exact h.2.symm
  | list => simp only [TypeWithStep, Option.some.injEq, Prod.mk.injEq] at h; exact h.2.symm
  | EmptyList ty =>
      simp only [TypeWithStep] at h
      obtain ⟨t0, c0, h0, h1⟩ := andThen_eq_ok h
      have e0 := hc _ _ _ _ h0
      subst e0
      split at h1
      · simp only [Option.some.injEq, Prod.mk.injEq] at h1; exact h1.2.symm
      · simp at h1
  | NonEmptyList l =>
      cases l with
      | nil => simp [TypeWithStep] at h
      | cons e0 rest =>
          simp only [TypeWithStep] at h
          obtain ⟨t0, c0, h0, h1⟩ := andThen_eq_ok h
          have e0 := hc _ _ _ _ h0
          subst e0
          split at h1
          · simp at h1
          · rename_i k c3 hk
            have e3 := hc _ _ _ _ hk
            subst e3
            split at h1
            · exact (listLoop_ok_ctx P hc t0 rest _ t c2 h1).1
            · simp at h1
          · simp at h1
          · simp at h1

/-- A call that returns a type leaves the context as it found it. -/
theorem TypeWith_ok_ctx (P : Prims) :
    ∀ (n : Nat) (e : Expr) (ctx : TypeContext) (t : Expr) (c2 : TypeContext),
      TypeWith P n e ctx = some (.ok t, c2) → c2 = ctx
  | 0, _, _, _, _, h => by simp [TypeWith] at h
  | n + 1, e, ctx, t, c2, h => by
      simp only [TypeWith] at h
      exact TypeWithStep_ok_ctx P (TypeWith_ok_ctx P n) e ctx t c2 h

theorem Returns_ok_ctx (P : Prims) {e : Expr} {ctx c2 : TypeContext} {t : Expr}
    (h : Returns P e ctx (.ok t) c2) : c2 = ctx := by
  obtain ⟨n, hn⟩ := h
  exact TypeWith_ok_ctx P n e ctx t c2 hn

/-! ## The universe chain and variables -/

/-- C1: in every context `Type.TypeWith` returns `Kind` and `Kind.TypeWith`
returns `Sort`, both without error, while `Sort.TypeWith` and `TypeWith` on
every other `Const` value (every integer from 2 up and every negative one)
return no type and the error "Sort has no type"; the context is left as it
was. The method of ast.go has the same body (`Const.TypeWith`). -/
theorem C1_universe_chain (P : Prims) (ctx : TypeContext) (fuel : Nat) :
    TypeWith P (fuel + 1) (.Const Const.Type_) ctx = some (.ok (.Const Const.Kind), ctx) ∧
    TypeWith P (fuel + 1) (.Const Const.Kind) ctx = some (.ok (.Const Const.Sort_), ctx) ∧
    TypeWith P (fuel + 1) (.Const Const.Sort_) ctx = some (.error .sortHasNoType, ctx) ∧
    (∀ k : Nat, TypeWith P (fuel + 1) (.Const ⟨(k : Int) + 2⟩) ctx
        = some (.error .sortHasNoType, ctx) ∧
      TypeWith P (fuel + 1) (.Const ⟨Int.negSucc k⟩) ctx
        = some (.error .sortHasNoType, ctx)) ∧
    TypeError.text .sortHasNoType = "Sort has no type" := by
  refine ⟨rfl, rfl, rfl, ?_, rfl⟩
  intro k
  have h0 : (⟨(k : Int) + 2⟩ : Const) ≠ Const.Type_ := by
    intro h
    have := congrArg Const.n h
    simp only [Const.Type_] at this
    omega
  have h1 : (⟨(k : Int) + 2⟩ : Const) ≠ Const.Kind := by
    intro h
    have := congrArg Const.n h
    simp only [Const.Kind] at this
    omega
  have h2 : (⟨Int.negSucc k⟩ : Const) ≠ Const.Type_ := by
    intro h
    have := congrArg Const.n h
    simp only [Const.Type_, Int.negSucc_eq] at this
    omega
  have h3 : (⟨Int.negSucc k⟩ : Const) ≠ Const.Kind := by
    intro h
    have := congrArg Const.n h
    simp only [Const.Kind, Int.negSucc_eq] at this
    omega
  constructor
  · simp only [TypeWith, TypeWithStep, Const.TypeWith, h0, h1, if_false]
  · simp only [TypeWith, TypeWithStep, Const.TypeWith, h2, h3, if_false]

/-- C2 (as the code behaves): `Var.TypeWith` never reads `v.Index`. For every
context, name and index the result is the one for index 0: the top of the
stack of the name, or the unbound-variable error when that stack is empty. So
with `x` bound to the stack `[Natural, Bool]`, `Var{x, 1}` gets the type
`Natural`, the entry at position 0, although position 1 holds `Bool`; the
method of ast.go (`t[0]`) does the same. -/
theorem C2_var_index_ignored (P : Prims) (fuel : Nat) :
    (∀ (ctx : TypeContext) (n : String) (i : Int),
      TypeWith P (fuel + 1) (.Var ⟨n, i⟩) ctx
        = some (match (ctx n)[0]? with
                | some t => .ok t
                | none => .error (.unboundVariable n), ctx)) ∧
    TypeWith P (fuel + 1) (.Var ⟨"x", 1⟩) ctxAB = some (.ok .natural, ctxAB) ∧
    Lookup ctxAB "x" 1 = some .boolean ∧
    Var.TypeWithAst ⟨"x", 1⟩ astCtxAB = .ok .natural := by
  refine ⟨?_, rfl, rfl, rfl⟩
  intro ctx n i
  rfl

/-- C3: for every name `n` and index `i`, `Var{n, i}.TypeWith(EmptyContext())`
returns no type and the error that reports `n` as an unbound variable, with the
context untouched; it is an error value, not a panic. This holds for the method
of typecheck.go and for the one of ast.go. -/
theorem C3_unbound_in_empty (P : Prims) (fuel : Nat) (n : String) (i : Int) :
    TypeWith P (fuel + 1) (.Var ⟨n, i⟩) EmptyContext
      = some (.error (.unboundVariable n), EmptyContext) ∧
    Var.TypeWithAst ⟨n, i⟩ AstContext.empty = .error (.unboundVariable n) ∧
    TypeError.text (.unboundVariable n) = "Unbound variable " ++ n :=
  ⟨rfl, rfl, rfl⟩

/-! ## Application and annotation -/

/-- C4 (as the code behaves): `App.TypeWith` compares the domain of the function
type with the type of the argument by `==`, not by `judgmentallyEqual`. In the
context where `y` has the type `(λ(a : Type) → a) Natural`, the function
`λ(x : Natural) → x` has type `Pi{x, Natural, Natural}`, the argument `y` has a
type that is judgmentally equal to `Natural`, and yet the application returns
the error "type mismatch between lambda and applied value" and never a type. -/
theorem C4_app_rejects_judgmentally_equal :
    resultOf (TypeWith refPrims 3 idNat ctxY) = some (.ok (.Pi "x" .natural .natural)) ∧
    resultOf (TypeWith refPrims 1 (.Var ⟨"y", 0⟩) ctxY) = some (.ok redexNat) ∧
    judgmentallyEqual refPrims .natural redexNat = true ∧
    resultOf (TypeWith refPrims 4 (.App idNat (.Var ⟨"y", 0⟩)) ctxY)
      = some (.error .typeMismatch) ∧
    ¬ ∃ t c, Returns refPrims (.App idNat (.Var ⟨"y", 0⟩)) ctxY (.ok t) c := by
  have h4 : resultOf (TypeWith refPrims 4 (.App idNat (.Var ⟨"y", 0⟩)) ctxY)
      = some (.error .typeMismatch) := by decide
  refine ⟨by decide, by decide, by decide, h4, ?_⟩
  rintro ⟨t, c, hr⟩
  rcases hx : TypeWith refPrims 4 (.App idNat (.Var ⟨"y", 0⟩)) ctxY with _ | ⟨r, c2⟩
  · rw [hx] at h4
    simp [resultOf] at h4
  · rw [hx] at h4
    simp only [resultOf, Option.map_some', Option.some.injEq] at h4
    have hu := Returns_unique refPrims hr ⟨4, hx⟩
    rw [h4] at hu
    exact Res.noConfusion hu.1

/-- C5 fails as stated: in the context where `y` has the type
`(λ(a : Type) → a) Natural`, the annotation `y : Natural` type-checks and the
type returned is `(λ(a : Type) → a) Natural`, which is not the declared type
`Natural` (it is only judgmentally equal to it). -/
theorem C5_counterexample :
    resultOf (TypeWith refPrims 2 (.Annot (.Var ⟨"y", 0⟩) .natural) ctxY)
      = some (.ok redexNat) ∧
    redexNat ≠ Expr.natural ∧
    judgmentallyEqual refPrims .natural redexNat = true := by
  refine ⟨by decide, by decide, by decide⟩

/-- C5 (amended): whenever `Annot{e, D}.TypeWith(ctx)` returns a type, that type
is the one inferred for `e` in `ctx`, which is judgmentally equal to the
declared type `D`; `D` itself type-checks in `ctx`, and the context is left as
it was. -/
theorem C5_annot_returns_inferred (P : Prims) (ctx c2 : TypeContext) (e D t : Expr)
    (h : Returns P (.Annot e D) ctx (.ok t) c2) :
    c2 = ctx ∧ Returns P e ctx (.ok t) ctx ∧ judgmentallyEqual P D t = true ∧
      ∃ tD, Returns P D ctx (.ok tD) ctx := by
  obtain ⟨n, hn⟩ := h
  cases n with
  | zero => simp [TypeWith] at hn
  | succ n =>
      have hkeep := TypeWith_ok_ctx P (n + 1) _ _ _ _ hn
      simp only [TypeWith, TypeWithStep] at hn
      obtain ⟨tD, c0, h0, h1⟩ := andThen_eq_ok hn
      obtain ⟨t2, c1, h2, h3⟩ := andThen_eq_ok h1
      have e0 := TypeWith_ok_ctx P n _ _ _ _ h0
      subst e0
      have e1 := TypeWith_ok_ctx P n _ _ _ _ h2
      subst e1
      by_cases hj : judgmentallyEqual P D t2 = true
      · simp only [hj, if_true, Option.some.injEq, Prod.mk.injEq, Res.ok.injEq] at h3
        rw [← h3.1]
        exact ⟨hkeep, ⟨n, h2⟩, hj, tD, ⟨n, h0⟩⟩
      · simp [hj] at h3

theorem C5_annot_returns_inferred_witness :
    Returns refPrims (.Annot (.Var ⟨"y", 0⟩) .natural) ctxY (.ok redexNat) ctxY ∧
    (ctxY = ctxY ∧ Returns refPrims (.Var ⟨"y", 0⟩) ctxY (.ok redexNat) ctxY ∧
      judgmentallyEqual refPrims .natural redexNat = true ∧
      ∃ tD, Returns refPrims .natural ctxY (.ok tD) ctxY) :=
  ⟨⟨2, rfl⟩,
    C5_annot_returns_inferred refPrims ctxY ctxY (.Var ⟨"y", 0⟩) .natural redexNat ⟨2, rfl⟩⟩

/-- With the annotation and the expression both type-checking, one more level
of fuel runs `Annot.TypeWith` to its end. -/
theorem Annot_eval (P : Prims) {n : Nat} {ctx : TypeContext} {e D tD t2 : Expr}
    (hD : TypeWith P n D ctx = some (.ok tD, ctx))
    (he : TypeWith P n e ctx = some (.ok t2, ctx)) :
    TypeWith P (n + 1) (.Annot e D) ctx
      = if judgmentallyEqual P D t2 then some (.ok t2, ctx)
        else some (.error (.annotMismatch t2 D), ctx) := by
  simp only [TypeWith, TypeWithStep, hD, andThen_ok, he]

/-- C6: when `D.TypeWith(ctx)` and `e.TypeWith(ctx)` both return a type, with
`t2` the type of `e`, then `Annot{e, D}.TypeWith(ctx)` returns a type if and
only if `judgmentallyEqual(D, t2)`; in that case it returns `t2`, and otherwise
it returns no type and the error whose text starts "Annotation mismatch". In
particular `Annot{NaturalLit(1), Bool}` is rejected with that error in every
context. -/
theorem C6_annot_accepts_iff (P : Prims) (ctx cD ce : TypeContext) (e D tD t2 : Expr)
    (hD : Returns P D ctx (.ok tD) cD) (he : Returns P e ctx (.ok t2) ce) :
    ((∃ t c, Returns P (.Annot e D) ctx (.ok t) c) ↔ judgmentallyEqual P D t2 = true) ∧
    (judgmentallyEqual P D t2 = true → Returns P (.Annot e D) ctx (.ok t2) ctx) ∧
    (judgmentallyEqual P D t2 = false →
      Returns P (.Annot e D) ctx (.error (.annotMismatch t2 D)) ctx) ∧
    TypeError.text (.annotMismatch t2 D) = "Annotation mismatch: inferred type " ∧
    (∀ ctx0 : TypeContext,
      Returns P (.Annot (.NaturalLit 1) .boolean) ctx0
        (.error (.annotMismatch .natural .boolean)) ctx0) := by
  rw [Returns_ok_ctx P hD] at hD
  rw [Returns_ok_ctx P he] at he
  obtain ⟨n, hn⟩ := hD
  obtain ⟨m, hm⟩ := he
  have a := TypeWith_mono P (Nat.le_max_left n m) hn
  have b := TypeWith_mono P (Nat.le_max_right n m) hm
  have hev := Annot_eval P a b
  have hyes : judgmentallyEqual P D t2 = true → Returns P (.Annot e D) ctx (.ok t2) ctx := by
    intro hj
    refine ⟨max n m + 1, ?_⟩
    rw [hev]
    simp [hj]
  have hno : judgmentallyEqual P D t2 = false →
      Returns P (.Annot e D) ctx (.error (.annotMismatch t2 D)) ctx := by
    intro hj
    refine ⟨max n m + 1, ?_⟩
    rw [hev]
    simp [hj]
  refine ⟨⟨?_, fun hj => ⟨t2, ctx, hyes hj⟩⟩, hyes, hno, rfl, ?_⟩
  · rintro ⟨t, c, hr⟩
    by_cases hj : judgmentallyEqual P D t2 = true
    · exact hj
    · have hu := Returns_unique P hr (hno (by simpa using hj))
      exact Res.noConfusion hu.1
  · intro ctx0
    exact ⟨2, rfl⟩

theorem C6_annot_accepts_iff_witness :
    Returns refPrims .natural EmptyContext (.ok .cType) EmptyContext ∧
    Returns refPrims (.NaturalLit 1) EmptyContext (.ok .natural) EmptyContext ∧
    (judgmentallyEqual refPrims .natural .natural = true →
      Returns refPrims (.Annot (.NaturalLit 1) .natural) EmptyContext (.ok .natural)
        EmptyContext) :=
  ⟨⟨1, rfl⟩, ⟨1, rfl⟩,
    (C6_annot_accepts_iff refPrims EmptyContext EmptyContext EmptyContext (.NaturalLit 1)
      .natural .cType .natural ⟨1, rfl⟩ ⟨1, rfl⟩).2.1⟩

/-! ## Function types -/

/-- C7 (as the code behaves): `Pi.TypeWith` asserts `tA.(Const)` and
`tB.(Const)` without a check, so a domain or codomain whose type does not
normalize to a universe makes it panic instead of returning an error. In every
context `Pi{"x", NaturalLit(1), Natural}` panics on the first assertion and
`Pi{"x", Natural, NaturalLit(1)}` on the second (with the binding of `x` still
pushed); and in general, whenever the domain type-checks to a type whose normal
form is no `Const`, the call panics. -/
theorem C7_pi_panics_on_non_universe (P : Prims) (ctx : TypeContext) (fuel : Nat) :
    TypeWith P (fuel + 2) (.Pi "x" (.NaturalLit 1) .natural) ctx
      = some (.fault .typeAssertion, ctx) ∧
    TypeWith P (fuel + 2) (.Pi "x" .natural (.NaturalLit 1)) ctx
      = some (.fault .typeAssertion, setStack ctx "x" (.natural :: ctx "x")) ∧
    (∀ (label : String) (dom cod tA : Expr) (c1 : TypeContext),
      Returns P dom ctx (.ok tA) c1 → (∀ k, Normalize P tA ≠ .Const k) →
        Returns P (.Pi label dom cod) ctx (.fault .typeAssertion) ctx) := by
  refine ⟨rfl, rfl, ?_⟩
  intro label dom cod tA c1 hdom hk
  rw [Returns_ok_ctx P hdom] at hdom
  obtain ⟨n, hn⟩ := hdom
  refine ⟨n + 1, ?_⟩
  simp only [TypeWith, TypeWithStep, hn, andThen_ok]

/-- C8 (as the code behaves): `Pi.TypeWith` pushes the binding for its label
and pops it only on the path that reaches `Rule`; the early `return nil, err`
skips the pop. Starting from the empty context, `Pi{"x", Natural, Var{"y", 0}}`
returns the unbound-variable error for `y` and leaves `x` bound to `[Natural]`,
so that `Var{"x", 0}` type-checks afterwards although `x` was unbound before;
and in every context `Pi{"x", Natural, Sort}` returns "Sort has no type" with
one more entry on the stack of `x`. -/
theorem C8_pi_error_leaves_binding (P : Prims) (fuel : Nat) :
    TypeWith P (fuel + 2) (.Pi "x" .natural (.Var ⟨"y", 0⟩)) EmptyContext
      = some (.error (.unboundVariable "y"), setStack EmptyContext "x" [.natural]) ∧
    setStack EmptyContext "x" [.natural] "x" = [.natural] ∧
    EmptyContext "x" = [] ∧
    TypeWith P (fuel + 1) (.Var ⟨"x", 0⟩) EmptyContext
      = some (.error (.unboundVariable "x"), EmptyContext) ∧
    resultOf (TypeWith P (fuel + 1) (.Var ⟨"x", 0⟩) (setStack EmptyContext "x" [.natural]))
      = some (.ok .natural) ∧
    (∀ ctx : TypeContext,
      TypeWith P (fuel + 2) (.Pi "x" .natural (.Const Const.Sort_)) ctx
        = some (.error .sortHasNoType, setStack ctx "x" (.natural :: ctx "x")) ∧
      setStack ctx "x" (.natural :: ctx "x") "x" ≠ ctx "x") := by
  refine ⟨rfl, rfl, rfl, rfl, rfl, ?_⟩
  intro ctx
  refine ⟨rfl, ?_⟩
  simp [setStack]

/-! ## Lists -/

/-- The elements after the first: a list that type-checks made the loop accept
each of them. -/
theorem listLoop_ok_elems (P : Prims) {call : Expr → TypeContext → Outcome}
    (hc : ∀ e c t c2, call e c = some (.ok t, c2) → c2 = c) (t : Expr) :
    ∀ (l : Exprs) (ctx : TypeContext) (r : Expr) (c2 : TypeContext),
      listLoop P call t l ctx = some (.ok r, c2) →
        ∀ e ∈ l.toList, ∃ t2, call e ctx = some (.ok t2, ctx) ∧
          judgmentallyEqual P t t2 = true
  | .nil, _, _, _, _ => by simp [Exprs.toList]
  | .cons elem rest, ctx, r, c2, h => by
      simp only [listLoop] at h
      obtain ⟨t2, c1, h1, h2⟩ := andThen_eq_ok h
      have e1 := hc _ _ _ _ h1
      subst e1
      by_cases hj : judgmentallyEqual P t t2 = true
      · simp only [hj, if_true] at h2
        intro e he
        simp only [Exprs.toList, List.mem_cons] at he
        rcases he with rfl | he
        · exact ⟨t2, h1, hj⟩
        · exact listLoop_ok_elems P hc t rest _ r c2 h2 e he
      · simp [hj] at h2

/-- What a list that type-checks looks like: when
`NonEmptyList[e0, ...].TypeWith(ctx)` returns a type, that type is
`App{List, t}` with `t` the type inferred for `e0`, the type of `t` normalizes
to `Type`, every later element type-checks to a type judgmentally equal to `t`,
and the context is left as it was. -/
theorem NonEmptyList_ok_shape (P : Prims) (ctx c2 : TypeContext) (e0 r : Expr)
    (rest : Exprs) (h : Returns P (.NonEmptyList (.cons e0 rest)) ctx (.ok r) c2) :
    c2 = ctx ∧ ∃ t, Returns P e0 ctx (.ok t) ctx ∧ r = .App .list t ∧
      (∃ k, Returns P t ctx (.ok k) ctx ∧ Normalize P k = .cType) ∧
      ∀ e ∈ rest.toList, ∃ t2, Returns P e ctx (.ok t2) ctx ∧
        judgmentallyEqual P t t2 = true := by
  obtain ⟨n, hn⟩ := h
  cases n with
  | zero => simp [TypeWith] at hn
  | succ n =>
      have hkeep := TypeWith_ok_ctx P (n + 1) _ _ _ _ hn
      simp only [TypeWith, TypeWithStep] at hn
      obtain ⟨t, c0, h0, h1⟩ := andThen_eq_ok hn
      have e0c := TypeWith_ok_ctx P n _ _ _ _ h0
      subst e0c
      refine ⟨hkeep, t, ⟨n, h0⟩, ?_⟩
      split at h1
      · simp at h1
      · rename_i k c3 hk
        have e3 := TypeWith_ok_ctx P n _ _ _ _ hk
        subst e3
        split at h1
        · rename_i hty
          have hshape := listLoop_ok_ctx P (TypeWith_ok_ctx P n) t rest _ r c2 h1
          have helems := listLoop_ok_elems P (TypeWith_ok_ctx P n) t rest _ r c2 h1
          refine ⟨hshape.2, ⟨k, ⟨n, hk⟩, hty⟩, ?_⟩
          intro e he
          obtain ⟨t2, ht2, hj⟩ := helems e he
          exact ⟨t2, ⟨n, ht2⟩, hj⟩
        · simp at h1
      · simp at h1
      · simp at h1

theorem NonEmptyList_ok_shape_witness :
    Returns refPrims (.NonEmptyList (.cons (.NaturalLit 1) (.cons (.NaturalLit 2) .nil)))
      EmptyContext (.ok (.App .list .natural)) EmptyContext ∧
    (EmptyContext = EmptyContext ∧ ∃ t,
      Returns refPrims (.NaturalLit 1) EmptyContext (.ok t) EmptyContext ∧
      Expr.App .list .natural = .App .list t ∧
      (∃ k, Returns refPrims t EmptyContext (.ok k) EmptyContext ∧
        Normalize refPrims k = .cType) ∧
      ∀ e ∈ (Exprs.cons (.NaturalLit 2) .nil).toList,
        ∃ t2, Returns refPrims e EmptyContext (.ok t2) EmptyContext ∧
          judgmentallyEqual refPrims t t2 = true) :=
  ⟨⟨2, rfl⟩,
    NonEmptyList_ok_shape refPrims EmptyContext EmptyContext (.NaturalLit 1)
      (.App .list .natural) (.cons (.NaturalLit 2) .nil) ⟨2, rfl⟩⟩

/-- C9 (as the code behaves): the second element of `NonEmptyList[Kind,
NaturalLit(1)]` type-checks to `Natural`, which is not judgmentally equal to
`Sort`, the type of the first element; the claim asks for an error, but the
call panics, because the failed inference of the type of `Sort` is used
unchecked. The example of the claim, `NonEmptyList[NaturalLit(1),
BoolLit(true)]`, is rejected in every context with the error naming `Natural`
and `Bool`. -/
theorem C9_list_mismatch_behaviour (P : Prims) (ctx : TypeContext) (fuel : Nat) :
    TypeWith P (fuel + 1) (.Const Const.Kind) ctx = some (.ok (.Const Const.Sort_), ctx) ∧
    TypeWith P (fuel + 1) (.NaturalLit 1) ctx = some (.ok .natural, ctx) ∧
    judgmentallyEqual P (.Const Const.Sort_) .natural = false ∧
    TypeWith P (fuel + 2)
        (.NonEmptyList (.cons (.Const Const.Kind) (.cons (.NaturalLit 1) .nil))) ctx
      = some (.fault .nilDereference, ctx) ∧
    TypeWith P (fuel + 2)
        (.NonEmptyList (.cons (.NaturalLit 1) (.cons (.BoolLit true) .nil))) ctx
      = some (.error (.listElemMismatch .natural .boolean), ctx) :=
  ⟨rfl, rfl, rfl, rfl, rfl⟩

/-- C10 (as the code behaves): `NonEmptyList.TypeWith` does not check the error
of `t.TypeWith(ctx)` before calling `k.Normalize()`. For every context and
every list whose first element is `Kind` (so `t = Sort`, which has no type),
in particular for `NonEmptyList[Kind]`, the call panics on the nil `k` instead
of returning an error; and in general the call panics whenever the first
element type-checks to a `t` whose own `TypeWith` returns an error. -/
theorem C10_list_panics_on_untypeable_type (P : Prims) (ctx : TypeContext) (fuel : Nat) :
    TypeWith P (fuel + 2) (.NonEmptyList (.cons (.Const Const.Kind) .nil)) ctx
      = some (.fault .nilDereference, ctx) ∧
    (∀ rest : Exprs,
      TypeWith P (fuel + 2) (.NonEmptyList (.cons (.Const Const.Kind) rest)) ctx
        = some (.fault .nilDereference, ctx)) ∧
    (∀ (e0 t : Expr) (rest : Exprs) (err : TypeError) (c1 c2 : TypeContext),
      Returns P e0 ctx (.ok t) c1 → Returns P t ctx (.error err) c2 →
        Returns P (.NonEmptyList (.cons e0 rest)) ctx (.fault .nilDereference) c2) := by
  refine ⟨rfl, fun _ => rfl, ?_⟩
  intro e0 t rest err c1 c2 h0 ht
  rw [Returns_ok_ctx P h0] at h0
  obtain ⟨n, hn⟩ := h0
  obtain ⟨m, hm⟩ := ht
  have a := TypeWith_mono P (Nat.le_max_left n m) hn
  have b := TypeWith_mono P (Nat.le_max_right n m) hm
  refine ⟨max n m + 1, ?_⟩
  simp only [TypeWith, TypeWithStep, a, andThen_ok, b]


/-- With the element type type-checking, one more level of fuel runs
`EmptyList.TypeWith` to its end. -/
theorem EmptyList_eval (P : Prims) {n : Nat} {ctx : TypeContext} {t k : Expr}
    (ht : TypeWith P n t ctx = some (.ok k, ctx)) :
    TypeWith P (n + 1) (.EmptyList t) ctx
      = if Normalize P k = .cType then some (.ok (.App .list t), ctx)
        else some (.error (.listAnnotNotType t), ctx) := by
  simp only [TypeWith, TypeWithStep, ht, andThen_ok]

/-- C11 (as the code behaves): `EmptyList{t}.TypeWith(ctx)` returns a type if and
only if `t.TypeWith(ctx)` returns a type whose normal form is `Type`, the type
returned is then `App{List, t}` with `t` as given, and
`EmptyList{Natural}` has type `App{List, Natural}` in every context. When
`t.TypeWith` returns an error, or a type whose normal form is not `Type`,
`EmptyList.TypeWith` returns an error. But the remaining case is not an error:
for `t = Pi{"x", NaturalLit(1), Natural}` the panic of `Pi.TypeWith` passes
through `EmptyList.TypeWith`. -/
theorem C11_empty_list_typing (P : Prims) (ctx : TypeContext) (fuel : Nat) :
    TypeWith P (fuel + 3) (.EmptyList (.Pi "x" (.NaturalLit 1) .natural)) ctx
      = some (.fault .typeAssertion, ctx) ∧
    TypeWith P (fuel + 2) (.EmptyList .natural) ctx = some (.ok (.App .list .natural), ctx) ∧
    (∀ t : Expr, (∃ r c, Returns P (.EmptyList t) ctx (.ok r) c) ↔
      ∃ k, Returns P t ctx (.ok k) ctx ∧ Normalize P k = .cType) ∧
    (∀ (t r : Expr) (c : TypeContext), Returns P (.EmptyList t) ctx (.ok r) c →
      r = .App .list t ∧ c = ctx) ∧
    (∀ (t : Expr) (e : TypeError) (c : TypeContext), Returns P t ctx (.error e) c →
      Returns P (.EmptyList t) ctx (.error e) c) ∧
    (∀ (t k : Expr) (c : TypeContext), Returns P t ctx (.ok k) c →
      Normalize P k ≠ .cType →
        Returns P (.EmptyList t) ctx (.error (.listAnnotNotType t)) ctx) := by
  have hshape : ∀ (t r : Expr) (c : TypeContext), Returns P (.EmptyList t) ctx (.ok r) c →
      r = .App .list t ∧ c = ctx ∧ ∃ k, Returns P t ctx (.ok k) ctx ∧
        Normalize P k = .cType := by
    intro t r c h
    obtain ⟨n, hn⟩ := h
    cases n with
    | zero => simp [TypeWith] at hn
    | succ n =>
        simp only [TypeWith, TypeWithStep] at hn
        obtain ⟨k, c0, h0, h1⟩ := andThen_eq_ok hn
        have e0 := TypeWith_ok_ctx P n _ _ _ _ h0
        subst e0
        by_cases hk : Normalize P k = .cType
        · simp only [hk, if_true, Option.some.injEq, Prod.mk.injEq, Res.ok.injEq] at h1
          exact ⟨h1.1.symm, h1.2.symm, k, ⟨n, h0⟩, hk⟩
        · simp [hk] at h1
  refine ⟨rfl, rfl, ?_, ?_, ?_, ?_⟩
  · intro t
    constructor
    · rintro ⟨r, c, h⟩
      exact (hshape t r c h).2.2
    · rintro ⟨k, ⟨n, hn⟩, hk⟩
      refine ⟨.App .list t, ctx, n + 1, ?_⟩
      rw [EmptyList_eval P hn]
      simp [hk]
  · intro t r c h
    exact ⟨(hshape t r c h).1, (hshape t r c h).2.1⟩
  · rintro t e c ⟨n, hn⟩
    refine ⟨n + 1, ?_⟩
    simp only [TypeWith, TypeWithStep, hn, andThen_error]
  · intro t k c h hk
    rw [Returns_ok_ctx P h] at h
    obtain ⟨n, hn⟩ := h
    refine ⟨n + 1, ?_⟩
    rw [EmptyList_eval P hn]
    simp [hk]

/-! ## Arithmetic -/

/-- With both operands type-checking, one more level of fuel runs
`NaturalPlus.TypeWith` to its end. -/
theorem NaturalPlus_eval (P : Prims) {n : Nat} {ctx : TypeContext} {l r tL tR : Expr}
    (hl : TypeWith P n l ctx = some (.ok tL, ctx))
    (hr : TypeWith P n r ctx = some (.ok tR, ctx)) :
    TypeWith P (n + 1) (.NaturalPlus l r) ctx
      = if Normalize P tL = .natural then
          (if Normalize P tR = .natural then some (.ok .natural, ctx)
           else some (.error (.cantAdd (Normalize P tR)), ctx))
        else some (.error (.cantAdd (Normalize P tL)), ctx) := by
  simp only [TypeWith, TypeWithStep, hl, andThen_ok]
  by_cases h : Normalize P tL = .natural
  · simp only [h, if_true, hr, andThen_ok]
  · simp only [h, if_false]

/-- C12 (as the code behaves): `NaturalPlus{L, R}.TypeWith(ctx)` returns a type
if and only if `L.TypeWith(ctx)` and `R.TypeWith(ctx)` both return a type whose
normal form is `Natural`; the type returned is then `Natural`, and
`NaturalPlus{NaturalLit(2), NaturalLit(2)}` has type `Natural` in every
context. When the left operand returns an error, that error is returned. But
not every other case is an error: for `L = Pi{"x", NaturalLit(1), Natural}` the
panic of `Pi.TypeWith` passes through `NaturalPlus.TypeWith`. -/
theorem C12_natural_plus_typing (P : Prims) (ctx : TypeContext) (fuel : Nat) :
    TypeWith P (fuel + 3) (.NaturalPlus (.Pi "x" (.NaturalLit 1) .natural) (.NaturalLit 2)) ctx
      = some (.fault .typeAssertion, ctx) ∧
    TypeWith P (fuel + 2) (.NaturalPlus (.NaturalLit 2) (.NaturalLit 2)) ctx
      = some (.ok .natural, ctx) ∧
    (∀ l r : Expr, (∃ t c, Returns P (.NaturalPlus l r) ctx (.ok t) c) ↔
      ∃ tL tR, Returns P l ctx (.ok tL) ctx ∧ Normalize P tL = .natural ∧
        Returns P r ctx (.ok tR) ctx ∧ Normalize P tR = .natural) ∧
    (∀ (l r t : Expr) (c : TypeContext), Returns P (.NaturalPlus l r) ctx (.ok t) c →
      t = .natural ∧ c = ctx) ∧
    (∀ (l r : Expr) (e : TypeError) (c : TypeContext), Returns P l ctx (.error e) c →
      Returns P (.NaturalPlus l r) ctx (.error e) c) := by
  have hshape : ∀ (l r t : Expr) (c : TypeContext),
      Returns P (.NaturalPlus l r) ctx (.ok t) c →
      t = .natural ∧ c = ctx ∧ ∃ tL tR, Returns P l ctx (.ok tL) ctx ∧
        Normalize P tL = .natural ∧ Returns P r ctx (.ok tR) ctx ∧
        Normalize P tR = .natural := by
    intro l r t c h
    obtain ⟨n, hn⟩ := h
    cases n with
    | zero => simp [TypeWith] at hn
    | succ n =>
        simp only [TypeWith, TypeWithStep] at hn
        obtain ⟨tL, c0, h0, h1⟩ := andThen_eq_ok hn
        have e0 := TypeWith_ok_ctx P n _ _ _ _ h0
        subst e0
        by_cases hL : Normalize P tL = .natural
        · simp only [hL, if_true] at h1
          obtain ⟨tR, c1, h2, h3⟩ := andThen_eq_ok h1
          have e1 := TypeWith_ok_ctx P n _ _ _ _ h2
          subst e1
          by_cases hR : Normalize P tR = .natural
          · simp only [hR, if_true, Option.some.injEq, Prod.mk.injEq, Res.ok.injEq] at h3
            exact ⟨h3.1.symm, h3.2.symm, tL, tR, ⟨n, h0⟩, hL, ⟨n, h2⟩, hR⟩
          · simp [hR] at h3
        · simp [hL] at h1
  refine ⟨rfl, rfl, ?_, ?_, ?_⟩
  · intro l r
    constructor
    · rintro ⟨t, c, h⟩
      exact (hshape l r t c h).2.2
    · rintro ⟨tL, tR, ⟨n, hn⟩, hL, ⟨m, hm⟩, hR⟩
      have a := TypeWith_mono P (Nat.le_max_left n m) hn
      have b := TypeWith_mono P (Nat.le_max_right n m) hm
      refine ⟨.natural, ctx, max n m + 1, ?_⟩
      rw [NaturalPlus_eval P a b]
      simp [hL, hR]
  · intro l r t c h
    exact ⟨(hshape l r t c h).1, (hshape l r t c h).2.1⟩
  · rintro l r e c ⟨n, hn⟩
    refine ⟨n + 1, ?_⟩
    simp only [TypeWith, TypeWithStep, hn, andThen_error]


/-! ## Lambda, application and the propagation of errors -/

/-- With the parameter type, the body and the function type all type-checking,
one more level of fuel runs `LambdaExpr.TypeWith` to its end. -/
theorem Lambda_eval (P : Prims) {n : Nat} {ctx cB : TypeContext} {x : String}
    {A b tA B tP : Expr}
    (hA : TypeWith P n A ctx = some (.ok tA, ctx))
    (hb : TypeWith P n b (Map (fun e => P.Shift 1 ⟨x, 0⟩ e) (Insert ctx x (Normalize P A)))
      = some (.ok B, cB))
    (hP : TypeWith P n (.Pi x (Normalize P A) B) ctx = some (.ok tP, ctx)) :
    TypeWith P (n + 1) (.LambdaExpr x A b) ctx
      = some (.ok (.Pi x (Normalize P A) B), ctx) := by
  simp only [TypeWith, TypeWithStep, hA, andThen_ok, hb, onCtx, hP]

/-- C13: `LambdaExpr{x, A, b}.TypeWith(ctx)` returns a type if and only if
`A.TypeWith(ctx)` returns a type, `b.TypeWith(ctx')` returns some type `B`, where
`ctx'` is `ctx` with `Normalize(A)` pushed under `x` and then every stored type
mapped by `Shift(1, Var{x}, -)`, and `Pi{x, Normalize(A), B}.TypeWith(ctx)`
returns a type; the type returned is then exactly `Pi{x, Normalize(A), B}`, and
the context is left as it was. -/
theorem C13_lambda_typing (P : Prims) (ctx : TypeContext) (x : String) (A b : Expr) :
    ((∃ T c, Returns P (.LambdaExpr x A b) ctx (.ok T) c) ↔
      ∃ tA B cB tP, Returns P A ctx (.ok tA) ctx ∧
        Returns P b (Map (fun e => P.Shift 1 ⟨x, 0⟩ e) (Insert ctx x (Normalize P A)))
          (.ok B) cB ∧
        Returns P (.Pi x (Normalize P A) B) ctx (.ok tP) ctx) ∧
    (∀ (T : Expr) (c : TypeContext), Returns P (.LambdaExpr x A b) ctx (.ok T) c →
      c = ctx ∧ ∃ B cB,
        Returns P b (Map (fun e => P.Shift 1 ⟨x, 0⟩ e) (Insert ctx x (Normalize P A)))
          (.ok B) cB ∧
        T = .Pi x (Normalize P A) B) := by
  have hshape : ∀ (T : Expr) (c : TypeContext),
      Returns P (.LambdaExpr x A b) ctx (.ok T) c →
      c = ctx ∧ ∃ tA B cB tP, Returns P A ctx (.ok tA) ctx ∧
        Returns P b (Map (fun e => P.Shift 1 ⟨x, 0⟩ e) (Insert ctx x (Normalize P A)))
          (.ok B) cB ∧
        Returns P (.Pi x (Normalize P A) B) ctx (.ok tP) ctx ∧
        T = .Pi x (Normalize P A) B := by
    intro T c h
    have hc := Returns_ok_ctx P h
    obtain ⟨n, hn⟩ := h
    cases n with
    | zero => simp [TypeWith] at hn
    | succ n =>
        simp only [TypeWith, TypeWithStep] at hn
        obtain ⟨tA, c0, h0, h1⟩ := andThen_eq_ok hn
        have e0 := TypeWith_ok_ctx P n _ _ _ _ h0
        subst e0
        obtain ⟨B, c1, h2, h3⟩ := andThen_eq_ok h1
        obtain ⟨e1, cB, hB⟩ := onCtx_eq_some h2
        subst e1
        obtain ⟨tP, c3, h4, h5⟩ := andThen_eq_ok h3
        have e3 := TypeWith_ok_ctx P n _ _ _ _ h4
        subst e3
        simp only [Option.some.injEq, Prod.mk.injEq, Res.ok.injEq] at h5
        exact ⟨hc, tA, B, cB, tP, ⟨n, h0⟩, ⟨n, hB⟩, ⟨n, h4⟩, h5.1.symm⟩
  constructor
  · constructor
    · rintro ⟨T, c, h⟩
      obtain ⟨_, tA, B, cB, tP, h1, h2, h3, _⟩ := hshape T c h
      exact ⟨tA, B, cB, tP, h1, h2, h3⟩
    · rintro ⟨tA, B, cB, tP, ⟨n1, h1⟩, ⟨n2, h2⟩, ⟨n3, h3⟩⟩
      have a := TypeWith_mono P (Nat.le_max_left n1 (max n2 n3)) h1
      have b2 := TypeWith_mono P
        (le_trans (Nat.le_max_left n2 n3) (Nat.le_max_right n1 (max n2 n3))) h2
      have c3 := TypeWith_mono P
        (le_trans (Nat.le_max_right n2 n3) (Nat.le_max_right n1 (max n2 n3))) h3
      exact ⟨_, ctx, max n1 (max n2 n3) + 1, Lambda_eval P a b2 c3⟩
  · intro T c h
    obtain ⟨hc, _, B, cB, _, _, h2, _, hT⟩ := hshape T c h
    exact ⟨hc, B, cB, h2, hT⟩

/-- C14: when `f.TypeWith(ctx)` returns a type whose normal form is not a `Pi`,
`App{f, a}.TypeWith(ctx)` returns no type and the error "Expected ... to be a
function type" about that normal form, for every argument `a`: the argument is
not looked at, and the context is left as it was. -/
theorem C14_app_expects_function (P : Prims) (ctx c1 : TypeContext) (f a tF : Expr)
    (hf : Returns P f ctx (.ok tF) c1)
    (hpi : ∀ l t b, Normalize P tF ≠ .Pi l t b) :
    Returns P (.App f a) ctx (.error (.expectedFunctionType (Normalize P tF))) ctx ∧
    TypeError.text (.expectedFunctionType (Normalize P tF)) = "Expected " ∧
    ¬ ∃ t c, Returns P (.App f a) ctx (.ok t) c := by
  rw [Returns_ok_ctx P hf] at hf
  obtain ⟨n, hn⟩ := hf
  have hret : Returns P (.App f a) ctx (.error (.expectedFunctionType (Normalize P tF))) ctx := by
    refine ⟨n + 1, ?_⟩
    simp only [TypeWith, TypeWithStep, hn, andThen_ok]
  refine ⟨hret, rfl, ?_⟩
  rintro ⟨t, c, h⟩
  exact Res.noConfusion (Returns_unique P h hret).1

theorem C14_app_expects_function_witness :
    Returns refPrims (.NaturalLit 1) EmptyContext (.ok .natural) EmptyContext ∧
    (Returns refPrims (.App (.NaturalLit 1) (.Var ⟨"z", 0⟩)) EmptyContext
        (.error (.expectedFunctionType (Normalize refPrims .natural))) EmptyContext ∧
      TypeError.text (.expectedFunctionType (Normalize refPrims .natural)) = "Expected " ∧
      ¬ ∃ t c, Returns refPrims (.App (.NaturalLit 1) (.Var ⟨"z", 0⟩)) EmptyContext (.ok t) c) :=
  ⟨⟨1, rfl⟩,
    C14_app_expects_function refPrims EmptyContext EmptyContext (.NaturalLit 1)
      (.Var ⟨"z", 0⟩) .natural ⟨1, rfl⟩ (fun _ _ _ h => Expr.noConfusion h)⟩

/-- C15: every rule with sub-terms passes on, unchanged, the error of the first
sub-term it checks. When `s.TypeWith(ctx)` returns the error `e`, then a
`LambdaExpr` with parameter type `s`, a `Pi` with domain `s`, an `App` with
function `s`, an `Annot` with annotation `s`, a `NaturalPlus` with left operand
`s`, an `EmptyList` with element type `s` and a `NonEmptyList` with first
element `s` all return no type and the same error `e` (and leave the context as
the failed call left it). -/
theorem C15_first_error_propagates (P : Prims) (ctx c1 : TypeContext) (s : Expr)
    (e : TypeError) (h : Returns P s ctx (.error e) c1) :
    (∀ (label : String) (body : Expr),
      Returns P (.LambdaExpr label s body) ctx (.error e) c1) ∧
    (∀ (label : String) (body : Expr), Returns P (.Pi label s body) ctx (.error e) c1) ∧
    (∀ arg : Expr, Returns P (.App s arg) ctx (.error e) c1) ∧
    (∀ ex : Expr, Returns P (.Annot ex s) ctx (.error e) c1) ∧
    (∀ r : Expr, Returns P (.NaturalPlus s r) ctx (.error e) c1) ∧
    Returns P (.EmptyList s) ctx (.error e) c1 ∧
    (∀ rest : Exprs, Returns P (.NonEmptyList (.cons s rest)) ctx (.error e) c1) := by
  obtain ⟨n, hn⟩ := h
  refine ⟨?_, ?_, ?_, ?_, ?_, ?_, ?_⟩
  · intro label body
    exact ⟨n + 1, by simp only [TypeWith, TypeWithStep, hn, andThen_error]⟩
  · intro label body
    exact ⟨n + 1, by simp only [TypeWith, TypeWithStep, hn, andThen_error]⟩
  · intro arg
    exact ⟨n + 1, by simp only [TypeWith, TypeWithStep, hn, andThen_error]⟩
  · intro ex
    exact ⟨n + 1, by simp only [TypeWith, TypeWithStep, hn, andThen_error]⟩
  · intro r
    exact ⟨n + 1, by simp only [TypeWith, TypeWithStep, hn, andThen_error]⟩
  · exact ⟨n + 1, by simp only [TypeWith, TypeWithStep, hn, andThen_error]⟩
  · intro rest
    exact ⟨n + 1, by simp only [TypeWith, TypeWithStep, hn, andThen_error]⟩

theorem C15_first_error_propagates_witness :
    Returns refPrims (.Var ⟨"z", 0⟩) EmptyContext (.error (.unboundVariable "z"))
      EmptyContext ∧
    Returns refPrims (.NaturalPlus (.Var ⟨"z", 0⟩) (.NaturalLit 1)) EmptyContext
      (.error (.unboundVariable "z")) EmptyContext :=
  ⟨⟨1, rfl⟩,
    (C15_first_error_propagates refPrims EmptyContext EmptyContext (.Var ⟨"z", 0⟩)
      (.unboundVariable "z") ⟨1, rfl⟩).2.2.2.2.1 (.NaturalLit 1)⟩

/-! ## Primitive types and literals -/

/-- C17: in every context `Double`, `Bool`, `Natural` and `Integer` have type
`Type`, `List` has type `Pi{"_", Type, Type}`, and every `DoubleLit`,
`BoolLit`, `NaturalLit` and `IntegerLit` value has type `Double`, `Bool`,
`Natural` and `Integer`; each call returns a type, whatever the context, and
leaves the context as it was. -/
theorem C17_primitives_and_literals (P : Prims) (ctx : TypeContext) (fuel : Nat) :
    TypeWith P (fuel + 1) .double ctx = some (.ok (.Const Const.Type_), ctx) ∧
    TypeWith P (fuel + 1) .boolean ctx = some (.ok (.Const Const.Type_), ctx) ∧
    TypeWith P (fuel + 1) .natural ctx = some (.ok (.Const Const.Type_), ctx) ∧
    TypeWith P (fuel + 1) .integer ctx = some (.ok (.Const Const.Type_), ctx) ∧
    TypeWith P (fuel + 1) .list ctx
      = some (.ok (.Pi "_" (.Const Const.Type_) (.Const Const.Type_)), ctx) ∧
    (∀ x : Nat, TypeWith P (fuel + 1) (.DoubleLit x) ctx = some (.ok .double, ctx)) ∧
    (∀ v : Bool, TypeWith P (fuel + 1) (.BoolLit v) ctx = some (.ok .boolean, ctx)) ∧
    (∀ n : Nat, TypeWith P (fuel + 1) (.NaturalLit n) ctx = some (.ok .natural, ctx)) ∧
    (∀ i : Int, TypeWith P (fuel + 1) (.IntegerLit i) ctx = some (.ok .integer, ctx)) :=
  ⟨rfl, rfl, rfl, rfl, rfl, fun _ => rfl, fun _ => rfl, fun _ => rfl, fun _ => rfl⟩

/-! ## The context after a successful `Pi` -/

/-- C18: when `Pi{label, domain, codomain}.TypeWith(ctx)` returns a type, the
context after the call holds, under every name, the same stack as before the
call, so every lookup `(n, i)` gives the same answer before and after. -/
theorem C18_pi_success_restores_context (P : Prims) (ctx c2 : TypeContext)
    (label : String) (dom cod t : Expr)
    (h : Returns P (.Pi label dom cod) ctx (.ok t) c2) :
    (∀ n : String, c2 n = ctx n) ∧
    (∀ (n : String) (i : Nat), Lookup c2 n i = Lookup ctx n i) := by
  have hc := Returns_ok_ctx P h
  subst hc
  exact ⟨fun _ => rfl, fun _ _ => rfl⟩

theorem C18_pi_success_restores_context_witness :
    Returns refPrims (.Pi "x" .natural .natural) EmptyContext (.ok .cType)
      (setStack (setStack EmptyContext "x" [.natural]) "x" []) ∧
    ((∀ n : String,
        setStack (setStack EmptyContext "x" [.natural]) "x" [] n = EmptyContext n) ∧
      (∀ (n : String) (i : Nat),
        Lookup (setStack (setStack EmptyContext "x" [.natural]) "x" []) n i
          = Lookup EmptyContext n i)) :=
  ⟨⟨2, rfl⟩,
    C18_pi_success_restores_context refPrims EmptyContext
      (setStack (setStack EmptyContext "x" [.natural]) "x" []) "x" .natural .natural .cType
      ⟨2, rfl⟩⟩


/-! ## Normalization twice -/

/-- A term built from `Const`, `Var` and `LambdaExpr` is its own normal form. -/
theorem Normalize_core (P : Prims) : ∀ t : Expr, coreTerm t = true → Normalize P t = t
  | .Const _, _ => by simp only [Normalize]
  | .Var _, _ => by simp only [Normalize]
  | .LambdaExpr l t b, h => by
      simp only [coreTerm, Bool.and_eq_true] at h
      simp only [Normalize, Normalize_core P t h.1, Normalize_core P b h.2]
  | .Pi _ _ _, h => by simp [coreTerm] at h
  | .App _ _, h => by simp [coreTerm] at h
  | .Annot _ _, h => by simp [coreTerm] at h
  | .double, h => by simp [coreTerm] at h
  | .DoubleLit _, h => by simp [coreTerm] at h
  | .boolean, h => by simp [coreTerm] at h
  | .BoolLit _, h => by simp [coreTerm] at h
  | .natural, h => by simp [coreTerm] at h
  | .NaturalLit _, h => by simp [coreTerm] at h
  | .NaturalPlus _ _, h => by simp [coreTerm] at h
  | .integer, h => by simp [coreTerm] at h
  | .IntegerLit _, h => by simp [coreTerm] at h
  | .list, h => by simp [coreTerm] at h
  | .EmptyList _, h => by simp [coreTerm] at h
  | .NonEmptyList _, h => by simp [coreTerm] at h

/-- A term that is not a `LambdaExpr` is recognised as such. -/
theorem isLambdaExpr_eq_false {f : Expr} (h : ∀ l t b, f ≠ .LambdaExpr l t b) :
    isLambdaExpr f = false := by
  cases f with
  | LambdaExpr l t b => exact absurd rfl (h l t b)
  | _ => rfl

/-- Two terms that are not both literals are recognised as such. -/
theorem isNaturalLit_and_eq_false {l r : Expr}
    (h : ∀ m n, l = .NaturalLit m → r = .NaturalLit n → False) :
    (isNaturalLit l && isNaturalLit r) = false := by
  cases l with
  | NaturalLit m =>
      cases r with
      | NaturalLit n => exact absurd rfl (fun e => h m n e rfl)
      | _ => rfl
  | _ => rfl

theorem normalizeAll_mono {call call2 : Expr → Option Expr}
    (hc : ∀ e x, call e = some x → call2 e = some x) :
    ∀ (l l2 : Exprs), normalizeAll call l = some l2 → normalizeAll call2 l = some l2
  | .nil, l2, h => by simpa [normalizeAll] using h
  | .cons e es, l2, h => by
      simp only [normalizeAll, Option.bind_eq_some] at h ⊢
      obtain ⟨e2, he, es2, hes, hr⟩ := h
      exact ⟨e2, hc _ _ he, es2, normalizeAll_mono hc es es2 hes, hr⟩

/-- One level of the normalizer keeps its result when the recursive calls are
replaced by calls that return whenever the original ones do. -/
theorem NormalizeStep_mono (P : Prims) {call call2 : Expr → Option Expr}
    (hc : ∀ e x, call e = some x → call2 e = some x) (t r : Expr)
    (h : NormalizeStep P call t = some r) : NormalizeStep P call2 t = some r := by
  cases t with
  | Const c => simpa [NormalizeStep] using h
  | Var v => simpa [NormalizeStep] using h
  | LambdaExpr l t b =>
      simp only [NormalizeStep, Option.bind_eq_some] at h ⊢
      obtain ⟨t2, ht, b2, hb, hr⟩ := h
      exact ⟨t2, hc _ _ ht, b2, hc _ _ hb, hr⟩
  | Pi l t b =>
      simp only [NormalizeStep, Option.bind_eq_some] at h ⊢
      obtain ⟨t2, ht, b2, hb, hr⟩ := h
      exact ⟨t2, hc _ _ ht, b2, hc _ _ hb, hr⟩
  | App f a =>
      simp only [NormalizeStep, Option.bind_eq_some] at h ⊢
      obtain ⟨f2, hf, a2, ha, hr⟩ := h
      refine ⟨f2, hc _ _ hf, a2, hc _ _ ha, ?_⟩
      split at hr
      · exact hc _ _ hr
      · exact hr
  | Annot e a =>
      simp only [NormalizeStep, Option.bind_eq_some] at h ⊢
      obtain ⟨t2, ht, b2, hb, hr⟩ := h
      exact ⟨t2, hc _ _ ht, b2, hc _ _ hb, hr⟩
  | double => simpa [NormalizeStep] using h
  | DoubleLit x => simpa [NormalizeStep] using h
  | boolean => simpa [NormalizeStep] using h
  | BoolLit b => simpa [NormalizeStep] using h
  | natural => simpa [NormalizeStep] using h
  | NaturalLit n => simpa [NormalizeStep] using h
  | NaturalPlus l r2 =>
      simp only [NormalizeStep, Option.bind_eq_some] at h ⊢
      obtain ⟨t2, ht, b2, hb, hr⟩ := h
      exact ⟨t2, hc _ _ ht, b2, hc _ _ hb, hr⟩
  | integer => simpa [NormalizeStep] using h
  | IntegerLit i => simpa [NormalizeStep] using h
  | list => simpa [NormalizeStep] using h
  | EmptyList t =>
      simp only [NormalizeStep, Option.bind_eq_some] at h ⊢
      obtain ⟨t2, ht, hr⟩ := h
      exact ⟨t2, hc _ _ ht, hr⟩
  | NonEmptyList l =>
      simp only [NormalizeStep, Option.bind_eq_some] at h ⊢
      obtain ⟨l2, hl, hr⟩ := h
      exact ⟨l2, normalizeAll_mono hc l l2 hl, hr⟩

/-- A larger bound does not change a normal form already reached. -/
theorem NormalizeFuel_succ (P : Prims) :
    ∀ (n : Nat) (t r : Expr), NormalizeFuel P n t = some r → NormalizeFuel P (n + 1) t = some r
  | 0, _, _, h => by simp [NormalizeFuel] at h
  | n + 1, t, r, h => by
      simp only [NormalizeFuel] at h ⊢
      exact NormalizeStep_mono P (NormalizeFuel_succ P n) t r h

theorem NormalizeFuel_mono (P : Prims) {n m : Nat} (hnm : n ≤ m) {t r : Expr}
    (h : NormalizeFuel P n t = some r) : NormalizeFuel P m t = some r := by
  induction hnm with
  | refl => exact h
  | step _ ih => exact NormalizeFuel_succ P _ _ _ ih

/-- A term has at most one normal form, whatever the bound. -/
theorem NormalizesTo_unique (P : Prims) {t r1 r2 : Expr}
    (h1 : NormalizesTo P t r1) (h2 : NormalizesTo P t r2) : r1 = r2 := by
  obtain ⟨n, hn⟩ := h1
  obtain ⟨m, hm⟩ := h2
  have a := NormalizeFuel_mono P (Nat.le_max_left n m) hn
  have b := NormalizeFuel_mono P (Nat.le_max_right n m) hm
  rw [a] at b
  simpa using b

theorem normalizeAll_isNormal {call : Expr → Option Expr}
    (hc : ∀ e x, call e = some x → isNormal x = true) :
    ∀ (l l2 : Exprs), normalizeAll call l = some l2 → isNormalList l2 = true
  | .nil, l2, h => by
      simp only [normalizeAll, Option.some.injEq] at h
      rw [← h]
      rfl
  | .cons e es, l2, h => by
      simp only [normalizeAll, Option.bind_eq_some, Option.some.injEq] at h
      obtain ⟨e2, he, es2, hes, hr⟩ := h
      rw [← hr]
      simp only [isNormalList, hc _ _ he, normalizeAll_isNormal hc es es2 hes, Bool.and_self]

/-- One level of the normalizer returns a normal form, if the recursive calls
do. -/
theorem NormalizeStep_isNormal (P : Prims) {call : Expr → Option Expr}
    (hc : ∀ e x, call e = some x → isNormal x = true) (t r : Expr)
    (h : NormalizeStep P call t = some r) : isNormal r = true := by
  cases t with
  | Const c => simp only [NormalizeStep, Option.some.injEq] at h; rw [← h]; rfl
  | Var v => simp only [NormalizeStep, Option.some.injEq] at h; rw [← h]; rfl
  | LambdaExpr l t b =>
      simp only [NormalizeStep, Option.bind_eq_some, Option.some.injEq] at h
      obtain ⟨t2, ht, b2, hb, hr⟩ := h
      rw [← hr]
      simp only [isNormal, hc _ _ ht, hc _ _ hb, Bool.and_self]
  | Pi l t b =>
      simp only [NormalizeStep, Option.bind_eq_some, Option.some.injEq] at h
      obtain ⟨t2, ht, b2, hb, hr⟩ := h
      rw [← hr]
      simp only [isNormal, hc _ _ ht, hc _ _ hb, Bool.and_self]
  | App f a =>
      simp only [NormalizeStep, Option.bind_eq_some] at h
      obtain ⟨f2, hf, a2, ha, hr⟩ := h
      split at hr
      · exact hc _ _ hr
      · rename_i hnot
        simp only [Option.some.injEq] at hr
        rw [← hr]
        have hl : isLambdaExpr f2 = false :=
          isLambdaExpr_eq_false (fun l t b e => hnot l t b e)
        simp only [isNormal, hc _ _ hf, hc _ _ ha, hl, Bool.and_self, Bool.not_false]
  | Annot e a =>
      simp only [NormalizeStep, Option.bind_eq_some, Option.some.injEq] at h
      obtain ⟨t2, ht, b2, hb, hr⟩ := h
      rw [← hr]
      simp only [isNormal, hc _ _ ht, hc _ _ hb, Bool.and_self]
  | double => simp only [NormalizeStep, Option.some.injEq] at h; rw [← h]; rfl
  | DoubleLit x => simp only [NormalizeStep, Option.some.injEq] at h; rw [← h]; rfl
  | boolean => simp only [NormalizeStep, Option.some.injEq] at h; rw [← h]; rfl
  | BoolLit b => simp only [NormalizeStep, Option.some.injEq] at h; rw [← h]; rfl
  | natural => simp only [NormalizeStep, Option.some.injEq] at h; rw [← h]; rfl
  | NaturalLit n => simp only [NormalizeStep, Option.some.injEq] at h; rw [← h]; rfl
  | NaturalPlus l r2 =>
      simp only [NormalizeStep, Option.bind_eq_some] at h
      obtain ⟨l2, hl, r3, hr3, hr⟩ := h
      split at hr
      · simp only [Option.some.injEq] at hr
        rw [← hr]
        rfl
      · rename_i hnot
        simp only [Option.some.injEq] at hr
        rw [← hr]
        have hlit : (isNaturalLit l2 && isNaturalLit r3) = false :=
          isNaturalLit_and_eq_false (fun m n e1 e2 => hnot m n e1 e2)
        simp only [isNormal, hc _ _ hl, hc _ _ hr3, hlit, Bool.and_self, Bool.not_false]
  | integer => simp only [NormalizeStep, Option.some.injEq] at h; rw [← h]; rfl
  | IntegerLit i => simp only [NormalizeStep, Option.some.injEq] at h; rw [← h]; rfl
  | list => simp only [NormalizeStep, Option.some.injEq] at h; rw [← h]; rfl
  | EmptyList t =>
      simp only [NormalizeStep, Option.bind_eq_some, Option.some.injEq] at h
      obtain ⟨t2, ht, hr⟩ := h
      rw [← hr]
      simp only [isNormal, hc _ _ ht]
  | NonEmptyList l =>
      simp only [NormalizeStep, Option.bind_eq_some, Option.some.injEq] at h
      obtain ⟨l2, hl, hr⟩ := h
      rw [← hr]
      simp only [isNormal, normalizeAll_isNormal hc l l2 hl]

/-- Every result of the normalizer is a normal form. -/
theorem NormalizeFuel_isNormal (P : Prims) :
    ∀ (n : Nat) (t r : Expr), NormalizeFuel P n t = some r → isNormal r = true
  | 0, _, _, h => by simp [NormalizeFuel] at h
  | n + 1, t, r, h => by
      simp only [NormalizeFuel] at h
      exact NormalizeStep_isNormal P (NormalizeFuel_isNormal P n) t r h

mutual
/-- A normal form normalizes to itself, with a bound that depends on its
depth only. -/
theorem NormalizesTo_self_of_isNormal (P : Prims) :
    ∀ r : Expr, isNormal r = true → ∃ n, NormalizeFuel P n r = some r
  | .Const _, _ => ⟨1, rfl⟩
  | .Var _, _ => ⟨1, rfl⟩
  | .LambdaExpr l t b, h => by
      simp only [isNormal, Bool.and_eq_true] at h
      obtain ⟨n, hn⟩ := NormalizesTo_self_of_isNormal P t h.1
      obtain ⟨m, hm⟩ := NormalizesTo_self_of_isNormal P b h.2
      have a1 := NormalizeFuel_mono P (Nat.le_max_left n m) hn
      have a2 := NormalizeFuel_mono P (Nat.le_max_right n m) hm
      exact ⟨max n m + 1, by
        simp only [NormalizeFuel, NormalizeStep, a1, a2, Option.some_bind]⟩
  | .Pi l t b, h => by
      simp only [isNormal, Bool.and_eq_true] at h
      obtain ⟨n, hn⟩ := NormalizesTo_self_of_isNormal P t h.1
      obtain ⟨m, hm⟩ := NormalizesTo_self_of_isNormal P b h.2
      have a1 := NormalizeFuel_mono P (Nat.le_max_left n m) hn
      have a2 := NormalizeFuel_mono P (Nat.le_max_right n m) hm
      exact ⟨max n m + 1, by
        simp only [NormalizeFuel, NormalizeStep, a1, a2, Option.some_bind]⟩
  | .App f a, h => by
      simp only [isNormal, Bool.and_eq_true, Bool.not_eq_true'] at h
      obtain ⟨n, hn⟩ := NormalizesTo_self_of_isNormal P f h.1.1
      obtain ⟨m, hm⟩ := NormalizesTo_self_of_isNormal P a h.1.2
      have a1 := NormalizeFuel_mono P (Nat.le_max_left n m) hn
      have a2 := NormalizeFuel_mono P (Nat.le_max_right n m) hm
      refine ⟨max n m + 1, ?_⟩
      simp only [NormalizeFuel, NormalizeStep, a1, a2, Option.some_bind]
      split
      · simp [isLambdaExpr] at h
      · rfl
  | .Annot t b, h => by
      simp only [isNormal, Bool.and_eq_true] at h
      obtain ⟨n, hn⟩ := NormalizesTo_self_of_isNormal P t h.1
      obtain ⟨m, hm⟩ := NormalizesTo_self_of_isNormal P b h.2
      have a1 := NormalizeFuel_mono P (Nat.le_max_left n m) hn
      have a2 := NormalizeFuel_mono P (Nat.le_max_right n m) hm
      exact ⟨max n m + 1, by
        simp only [NormalizeFuel, NormalizeStep, a1, a2, Option.some_bind]⟩
  | .double, _ => ⟨1, rfl⟩
  | .DoubleLit _, _ => ⟨1, rfl⟩
  | .boolean, _ => ⟨1, rfl⟩
  | .BoolLit _, _ => ⟨1, rfl⟩
  | .natural, _ => ⟨1, rfl⟩
  | .NaturalLit _, _ => ⟨1, rfl⟩
  | .NaturalPlus l r, h => by
      simp only [isNormal, Bool.and_eq_true, Bool.not_eq_true'] at h
      obtain ⟨n, hn⟩ := NormalizesTo_self_of_isNormal P l h.1.1
      obtain ⟨m, hm⟩ := NormalizesTo_self_of_isNormal P r h.1.2
      have a1 := NormalizeFuel_mono P (Nat.le_max_left n m) hn
      have a2 := NormalizeFuel_mono P (Nat.le_max_right n m) hm
      refine ⟨max n m + 1, ?_⟩
      simp only [NormalizeFuel, NormalizeStep, a1, a2, Option.some_bind]
      split
      · simp [isNaturalLit] at h
      · rfl
  | .integer, _ => ⟨1, rfl⟩
  | .IntegerLit _, _ => ⟨1, rfl⟩
  | .list, _ => ⟨1, rfl⟩
  | .EmptyList t, h => by
      simp only [isNormal] at h
      obtain ⟨n, hn⟩ := NormalizesTo_self_of_isNormal P t h
      exact ⟨n + 1, by simp only [NormalizeFuel, NormalizeStep, hn, Option.some_bind]⟩
  | .NonEmptyList l, h => by
      simp only [isNormal] at h
      obtain ⟨n, hn⟩ := normalizeAll_self_of_isNormal P l h
      exact ⟨n + 1, by simp only [NormalizeFuel, NormalizeStep, hn, Option.some_bind]⟩
/-- The same for the elements of a slice. -/
theorem normalizeAll_self_of_isNormal (P : Prims) :
    ∀ l : Exprs, isNormalList l = true → ∃ n, normalizeAll (NormalizeFuel P n) l = some l
  | .nil, _ => ⟨0, rfl⟩
  | .cons e es, h => by
      simp only [isNormalList, Bool.and_eq_true] at h
      obtain ⟨n, hn⟩ := NormalizesTo_self_of_isNormal P e h.1
      obtain ⟨m, hm⟩ := normalizeAll_self_of_isNormal P es h.2
      have a1 := NormalizeFuel_mono P (Nat.le_max_left n m) hn
      have a2 := normalizeAll_mono
        (fun e x hx => NormalizeFuel_mono P (Nat.le_max_right n m) hx) es es hm
      exact ⟨max n m, by simp only [normalizeAll, a1, a2, Option.some_bind]⟩
end

/-- A term built from `Const`, `Var` and `LambdaExpr` is in normal form. -/
theorem isNormal_of_coreTerm : ∀ t : Expr, coreTerm t = true → isNormal t = true
  | .Const _, _ => rfl
  | .Var _, _ => rfl
  | .LambdaExpr l t b, h => by
      simp only [coreTerm, Bool.and_eq_true] at h
      simp only [isNormal, isNormal_of_coreTerm t h.1, isNormal_of_coreTerm b h.2,
        Bool.and_self]
  | .Pi _ _ _, h => by simp [coreTerm] at h
  | .App _ _, h => by simp [coreTerm] at h
  | .Annot _ _, h => by simp [coreTerm] at h
  | .double, h => by simp [coreTerm] at h
  | .DoubleLit _, h => by simp [coreTerm] at h
  | .boolean, h => by simp [coreTerm] at h
  | .BoolLit _, h => by simp [coreTerm] at h
  | .natural, h => by simp [coreTerm] at h
  | .NaturalLit _, h => by simp [coreTerm] at h
  | .NaturalPlus _ _, h => by simp [coreTerm] at h
  | .integer, h => by simp [coreTerm] at h
  | .IntegerLit _, h => by simp [coreTerm] at h
  | .list, h => by simp [coreTerm] at h
  | .EmptyList _, h => by simp [coreTerm] at h
  | .NonEmptyList _, h => by simp [coreTerm] at h

theorem normalizeAll_eq_NormalizeList (P : Prims) {call : Expr → Option Expr}
    (hc : ∀ e x, call e = some x → Normalize P e = x) :
    ∀ (l l2 : Exprs), normalizeAll call l = some l2 → NormalizeList P l = l2
  | .nil, l2, h => by
      simp only [normalizeAll, Option.some.injEq] at h
      rw [← h]
      simp only [NormalizeList]
  | .cons e es, l2, h => by
      simp only [normalizeAll, Option.bind_eq_some, Option.some.injEq] at h
      obtain ⟨e2, he, es2, hes, hr⟩ := h
      rw [← hr]
      simp only [NormalizeList, hc _ _ he, normalizeAll_eq_NormalizeList P hc es es2 hes]

/-- The total function `Normalize` gives the normal form that `NormalizeFuel`
reaches, when `NormalizeReduct` returns the normal form of every term that has
one. -/
theorem Normalize_eq_of_NormalizeFuel (P : Prims)
    (hR : ∀ s x, NormalizesTo P s x → P.NormalizeReduct s = x) :
    ∀ (n : Nat) (t r : Expr), NormalizeFuel P n t = some r → Normalize P t = r
  | 0, _, _, h => by simp [NormalizeFuel] at h
  | n + 1, t, r, h => by
      have ih := Normalize_eq_of_NormalizeFuel P hR n
      simp only [NormalizeFuel] at h
      cases t with
      | Const c => simp only [NormalizeStep, Option.some.injEq] at h; rw [← h]; simp only [Normalize]
      | Var v => simp only [NormalizeStep, Option.some.injEq] at h; rw [← h]; simp only [Normalize]
      | LambdaExpr l t b =>
          simp only [NormalizeStep, Option.bind_eq_some, Option.some.injEq] at h
          obtain ⟨t2, ht, b2, hb, hr⟩ := h
          rw [← hr]
          simp only [Normalize, ih _ _ ht, ih _ _ hb]
      | Pi l t b =>
          simp only [NormalizeStep, Option.bind_eq_some, Option.some.injEq] at h
          obtain ⟨t2, ht, b2, hb, hr⟩ := h
          rw [← hr]
          simp only [Normalize, ih _ _ ht, ih _ _ hb]
      | App f a =>
          simp only [NormalizeStep, Option.bind_eq_some] at h
          obtain ⟨f2, hf, a2, ha, hr⟩ := h
          simp only [Normalize, ih _ _ hf, ih _ _ ha]
          split at hr
          · exact hR _ _ ⟨n, hr⟩
          · simp only [Option.some.injEq] at hr
            rw [← hr]
      | Annot e a =>
          simp only [NormalizeStep, Option.bind_eq_some, Option.some.injEq] at h
          obtain ⟨t2, ht, b2, hb, hr⟩ := h
          rw [← hr]
          simp only [Normalize, ih _ _ ht, ih _ _ hb]
      | double => simp only [NormalizeStep, Option.some.injEq] at h; rw [← h]; simp only [Normalize]
      | DoubleLit x => simp only [NormalizeStep, Option.some.injEq] at h; rw [← h]; simp only [Normalize]
      | boolean => simp only [NormalizeStep, Option.some.injEq] at h; rw [← h]; simp only [Normalize]
      | BoolLit b => simp only [NormalizeStep, Option.some.injEq] at h; rw [← h]; simp only [Normalize]
      | natural => simp only [NormalizeStep, Option.some.injEq] at h; rw [← h]; simp only [Normalize]
      | NaturalLit k => simp only [NormalizeStep, Option.some.injEq] at h; rw [← h]; simp only [Normalize]
      | NaturalPlus l r2 =>
          simp only [NormalizeStep, Option.bind_eq_some] at h
          obtain ⟨l2, hl, r3, hr3, hr⟩ := h
          simp only [Normalize, ih _ _ hl, ih _ _ hr3]
          split at hr
          · simp only [Option.some.injEq] at hr
            rw [← hr]
          · simp only [Option.some.injEq] at hr
            rw [← hr]
      | integer => simp only [NormalizeStep, Option.some.injEq] at h; rw [← h]; simp only [Normalize]
      | IntegerLit i => simp only [NormalizeStep, Option.some.injEq] at h; rw [← h]; simp only [Normalize]
      | list => simp only [NormalizeStep, Option.some.injEq] at h; rw [← h]; simp only [Normalize]
      | EmptyList t =>
          simp only [NormalizeStep, Option.bind_eq_some, Option.some.injEq] at h
          obtain ⟨t2, ht, hr⟩ := h
          rw [← hr]
          simp only [Normalize, ih _ _ ht]
      | NonEmptyList l =>
          simp only [NormalizeStep, Option.bind_eq_some, Option.some.injEq] at h
          obtain ⟨l2, hl, hr⟩ := h
          rw [← hr]
          simp only [Normalize, normalizeAll_eq_NormalizeList P ih l l2 hl]

/-- C16: whenever `Normalize(t)` returns a term `r`, `Normalize(r)` returns `r`
again and nothing else, so `Normalize(Normalize(t))` is structurally equal to
`Normalize(t)`; `r` is a normal form. For every term built from `Const`, `Var`
and `LambdaExpr`, the variants whose `Normalize` is in ast.go, `Normalize`
returns, without any typing precondition, and returns the term itself. The
total function `Normalize` of the checker gives the same `r`, and is idempotent
at `t`, whenever `NormalizeReduct` returns the normal form of every term that
has one. -/
theorem C16_normalize_idempotent (P : Prims) (t r : Expr) (h : NormalizesTo P t r) :
    NormalizesTo P r r ∧
    (∀ r2 : Expr, NormalizesTo P r r2 → r2 = r) ∧
    isNormal r = true ∧
    (∀ s : Expr, coreTerm s = true →
      NormalizesTo P s s ∧ Normalize P s = s ∧
        Normalize P (Normalize P s) = Normalize P s) ∧
    ((∀ s x, NormalizesTo P s x → P.NormalizeReduct s = x) →
      Normalize P t = r ∧ Normalize P (Normalize P t) = Normalize P t) := by
  obtain ⟨n, hn⟩ := h
  have hnormal := NormalizeFuel_isNormal P n t r hn
  have hself : NormalizesTo P r r := NormalizesTo_self_of_isNormal P r hnormal
  refine ⟨hself, fun r2 h2 => NormalizesTo_unique P h2 hself, hnormal, ?_, ?_⟩
  · intro s hs
    refine ⟨NormalizesTo_self_of_isNormal P s (isNormal_of_coreTerm s hs),
      Normalize_core P s hs, ?_⟩
    rw [Normalize_core P s hs, Normalize_core P s hs]
  · intro hR
    have e1 := Normalize_eq_of_NormalizeFuel P hR n t r hn
    obtain ⟨m, hm⟩ := hself
    have e2 := Normalize_eq_of_NormalizeFuel P hR m r r hm
    exact ⟨e1, by rw [e1, e2]⟩

theorem C16_normalize_idempotent_witness :
    NormalizesTo refPrims applyToId (.NaturalLit 1) ∧
    NormalizesTo refPrims (.NaturalLit 1) (.NaturalLit 1) ∧
    isNormal (.NaturalLit 1) = true ∧
    NormalizesTo refPrims idCore idCore ∧
    Normalize refPrims applyToId = .NaturalLit 1 ∧
    Normalize refPrims (Normalize refPrims applyToId) = Normalize refPrims applyToId :=
  ⟨⟨4, by decide⟩,
    (C16_normalize_idempotent refPrims applyToId (.NaturalLit 1) ⟨4, by decide⟩).1,
    (C16_normalize_idempotent refPrims applyToId (.NaturalLit 1) ⟨4, by decide⟩).2.2.1,
    ((C16_normalize_idempotent refPrims applyToId (.NaturalLit 1) ⟨4, by decide⟩).2.2.2.1
      idCore (by decide)).1,
    by decide, by decide⟩

/-! ## Judgmental equality as a relation -/

/-- Two `float64` values are `==` exactly when neither is a NaN and they have
the same chosen bit pattern. -/
theorem float64Eq_iff (a b : Nat) :
    float64Eq a b = true ↔
      float64IsNaN a = false ∧ float64IsNaN b = false ∧ canonFloat a = canonFloat b := by
  have h63 : (2 : Nat) ^ 63 = 9223372036854775808 := by norm_num
  unfold float64Eq canonFloat
  rw [h63]
  cases float64IsNaN a <;> cases float64IsNaN b <;>
    simp only [Bool.not_false, Bool.not_true, Bool.true_and, Bool.false_and, Bool.and_false,
      Bool.or_eq_true, Bool.and_eq_true, decide_eq_true_eq, true_and, false_and, and_false,
      Bool.false_eq_true, Bool.true_eq_false, iff_false, not_false_eq_true, reduceCtorEq]
  by_cases za : a % 9223372036854775808 = 0 <;> by_cases zb : b % 9223372036854775808 = 0 <;>
    simp only [za, zb, if_true, if_false, and_self, and_false, false_and, or_false, or_true,
      true_iff, iff_true]
  · constructor
    · intro h; omega
    · intro h; omega
  · constructor
    · intro h; omega
    · intro h; omega


mutual
/-- Two terms are `reflect.DeepEqual` exactly when neither holds a NaN and they
are the same term up to the sign of zero in `DoubleLit`s. -/
theorem deepEqual_iff : ∀ a b : Expr,
    deepEqual a b = true ↔ (nanFree a = true ∧ nanFree b = true ∧ canon a = canon b)
  | .Const x, b => by
      cases b with
      | Const y =>
          have hd : deepEqual (.Const x) (.Const y) = decide (x = y) := rfl
          rw [hd]
          simp only [nanFree, canon, Expr.Const.injEq, decide_eq_true_eq, true_and]
      | _ =>
          refine ⟨fun h => ?_, fun h => ?_⟩
          · cases h
          · cases h.2.2
  | .Var x, b => by
      cases b with
      | Var y =>
          have hd : deepEqual (.Var x) (.Var y) = decide (x = y) := rfl
          rw [hd]
          simp only [nanFree, canon, Expr.Var.injEq, decide_eq_true_eq, true_and]
      | _ =>
          refine ⟨fun h => ?_, fun h => ?_⟩
          · cases h
          · cases h.2.2
  | .LambdaExpr l t u, b => by
      cases b with
      | LambdaExpr l2 t2 u2 =>
          have hd : deepEqual (.LambdaExpr l t u) (.LambdaExpr l2 t2 u2)
              = (decide (l = l2) && deepEqual t t2 && deepEqual u u2) := rfl
          rw [hd]
          simp only [nanFree, canon, Expr.LambdaExpr.injEq, Bool.and_eq_true, decide_eq_true_eq,
            deepEqual_iff t t2, deepEqual_iff u u2]
          tauto
      | _ =>
          refine ⟨fun h => ?_, fun h => ?_⟩
          · cases h
          · cases h.2.2
  | .Pi l t u, b => by
      cases b with
      | Pi l2 t2 u2 =>
          have hd : deepEqual (.Pi l t u) (.Pi l2 t2 u2)
              = (decide (l = l2) && deepEqual t t2 && deepEqual u u2) := rfl
          rw [hd]
          simp only [nanFree, canon, Expr.Pi.injEq, Bool.and_eq_true, decide_eq_true_eq,
            deepEqual_iff t t2, deepEqual_iff u u2]
          tauto
      | _ =>
          refine ⟨fun h => ?_, fun h => ?_⟩
          · cases h
          · cases h.2.2
  | .App t u, b => by
      cases b with
      | App t2 u2 =>
          have hd : deepEqual (.App t u) (.App t2 u2)
              = (deepEqual t t2 && deepEqual u u2) := rfl
          rw [hd]
          simp only [nanFree, canon, Expr.App.injEq, Bool.and_eq_true,
            deepEqual_iff t t2, deepEqual_iff u u2]
          tauto
      | _ =>
          refine ⟨fun h => ?_, fun h => ?_⟩
          · cases h
          · cases h.2.2
  | .Annot t u, b => by
      cases b with
      | Annot t2 u2 =>
          have hd : deepEqual (.Annot t u) (.Annot t2 u2)
              = (deepEqual t t2 && deepEqual u u2) := rfl
          rw [hd]
          simp only [nanFree, canon, Expr.Annot.injEq, Bool.and_eq_true,
            deepEqual_iff t t2, deepEqual_iff u u2]
          tauto
      | _ =>
          refine ⟨fun h => ?_, fun h => ?_⟩
          · cases h
          · cases h.2.2
  | .double, b => by
      cases b with
      | double => exact ⟨fun _ => ⟨rfl, rfl, rfl⟩, fun _ => rfl⟩
      | _ =>
          refine ⟨fun h => ?_, fun h => ?_⟩
          · cases h
          · cases h.2.2
  | .DoubleLit x, b => by
      cases b with
      | DoubleLit y =>
          have hd : deepEqual (.DoubleLit x) (.DoubleLit y) = float64Eq x y := rfl
          rw [hd]
          simp only [nanFree, canon, Expr.DoubleLit.injEq, float64Eq_iff, Bool.not_eq_true']
      | _ =>
          refine ⟨fun h => ?_, fun h => ?_⟩
          · cases h
          · cases h.2.2
  | .boolean, b => by
      cases b with
      | boolean => exact ⟨fun _ => ⟨rfl, rfl, rfl⟩, fun _ => rfl⟩
      | _ =>
          refine ⟨fun h => ?_, fun h => ?_⟩
          · cases h
          · cases h.2.2
  | .BoolLit x, b => by
      cases b with
      | BoolLit y =>
          have hd : deepEqual (.BoolLit x) (.BoolLit y) = decide (x = y) := rfl
          rw [hd]
          simp only [nanFree, canon, Expr.BoolLit.injEq, decide_eq_true_eq, true_and]
      | _ =>
          refine ⟨fun h => ?_, fun h => ?_⟩
          · cases h
          · cases h.2.2
  | .natural, b => by
      cases b with
      | natural => exact ⟨fun _ => ⟨rfl, rfl, rfl⟩, fun _ => rfl⟩
      | _ =>
          refine ⟨fun h => ?_, fun h => ?_⟩
          · cases h
          · cases h.2.2
  | .NaturalLit x, b => by
      cases b with
      | NaturalLit y =>
          have hd : deepEqual (.NaturalLit x) (.NaturalLit y) = decide (x = y) := rfl
          rw [hd]
          simp only [nanFree, canon, Expr.NaturalLit.injEq, decide_eq_true_eq, true_and]
      | _ =>
          refine ⟨fun h => ?_, fun h => ?_⟩
          · cases h
          · cases h.2.2
  | .NaturalPlus t u, b => by
      cases b with
      | NaturalPlus t2 u2 =>
          have hd : deepEqual (.NaturalPlus t u) (.NaturalPlus t2 u2)
              = (deepEqual t t2 && deepEqual u u2) := rfl
          rw [hd]
          simp only [nanFree, canon, Expr.NaturalPlus.injEq, Bool.and_eq_true,
            deepEqual_iff t t2, deepEqual_iff u u2]
          tauto
      | _ =>
          refine ⟨fun h => ?_, fun h => ?_⟩
          · cases h
          · cases h.2.2
  | .integer, b => by
      cases b with
      | integer => exact ⟨fun _ => ⟨rfl, rfl, rfl⟩, fun _ => rfl⟩
      | _ =>
          refine ⟨fun h => ?_, fun h => ?_⟩
          · cases h
          · cases h.2.2
  | .IntegerLit x, b => by
      cases b with
      | IntegerLit y =>
          have hd : deepEqual (.IntegerLit x) (.IntegerLit y) = decide (x = y) := rfl
          rw [hd]
          simp only [nanFree, canon, Expr.IntegerLit.injEq, decide_eq_true_eq, true_and]
      | _ =>
          refine ⟨fun h => ?_, fun h => ?_⟩
          · cases h
          · cases h.2.2
  | .list, b => by
      cases b with
      | list => exact ⟨fun _ => ⟨rfl, rfl, rfl⟩, fun _ => rfl⟩
      | _ =>
          refine ⟨fun h => ?_, fun h => ?_⟩
          · cases h
          · cases h.2.2
  | .EmptyList t, b => by
      cases b with
      | EmptyList t2 =>
          have hd : deepEqual (.EmptyList t) (.EmptyList t2) = deepEqual t t2 := rfl
          rw [hd]
          simp only [nanFree, canon, Expr.EmptyList.injEq, deepEqual_iff t t2]
      | _ =>
          refine ⟨fun h => ?_, fun h => ?_⟩
          · cases h
          · cases h.2.2
  | .NonEmptyList l, b => by
      cases b with
      | NonEmptyList l2 =>
          have hd : deepEqual (.NonEmptyList l) (.NonEmptyList l2) = deepEqualList l l2 := rfl
          rw [hd]
          simp only [nanFree, canon, Expr.NonEmptyList.injEq, deepEqualList_iff l l2]
      | _ =>
          refine ⟨fun h => ?_, fun h => ?_⟩
          · cases h
          · cases h.2.2
/-- The same for two slices. -/
theorem deepEqualList_iff : ∀ a b : Exprs,
    deepEqualList a b = true ↔
      (nanFreeList a = true ∧ nanFreeList b = true ∧ canonList a = canonList b)
  | .nil, b => by
      cases b with
      | nil => exact ⟨fun _ => ⟨rfl, rfl, rfl⟩, fun _ => rfl⟩
      | cons e2 es2 =>
          refine ⟨fun h => ?_, fun h => ?_⟩
          · cases h
          · cases h.2.2
  | .cons e es, b => by
      cases b with
      | nil =>
          refine ⟨fun h => ?_, fun h => ?_⟩
          · cases h
          · cases h.2.2
      | cons e2 es2 =>
          have hd : deepEqualList (.cons e es) (.cons e2 es2)
              = (deepEqual e e2 && deepEqualList es es2) := rfl
          rw [hd]
          simp only [nanFreeList, canonList, Exprs.cons.injEq, Bool.and_eq_true,
            deepEqual_iff e e2, deepEqualList_iff es es2]
          tauto
end


theorem deepEqual_symm {a b : Expr} (h : deepEqual a b = true) : deepEqual b a = true := by
  rw [deepEqual_iff] at h ⊢
  exact ⟨h.2.1, h.1, h.2.2.symm⟩

theorem deepEqual_trans {a b c : Expr} (h1 : deepEqual a b = true)
    (h2 : deepEqual b c = true) : deepEqual a c = true := by
  rw [deepEqual_iff] at h1 h2 ⊢
  exact ⟨h1.1, h2.2.1, h1.2.2.trans h2.2.2⟩

theorem deepEqual_self (a : Expr) : deepEqual a a = true ↔ nanFree a = true := by
  rw [deepEqual_iff]
  exact ⟨fun h => h.1, fun h => ⟨h, h, rfl⟩⟩

/-- C19 fails as stated: `DoubleLit(NaN)` is not judgmentally equal to itself,
because `reflect.DeepEqual` compares floating-point values with `==`; and it is
not judgmentally equal to its normal form either, although `Normalize` is
idempotent on it. -/
theorem C19_counterexample :
    judgmentallyEqual refPrims (.DoubleLit nanBits) (.DoubleLit nanBits) = false ∧
    Normalize refPrims (Normalize refPrims (.DoubleLit nanBits))
      = Normalize refPrims (.DoubleLit nanBits) ∧
    judgmentallyEqual refPrims (.DoubleLit nanBits)
      (Normalize refPrims (.DoubleLit nanBits)) = false := by
  refine ⟨by decide, by decide, by decide⟩

/-- C19 (amended): `judgmentallyEqual` is symmetric and transitive on all terms;
`judgmentallyEqual(a, a)` holds exactly when the normal form of `a` holds no NaN
`DoubleLit`, so the relation is an equivalence on the terms whose normal form
is free of NaN; and when `Normalize` is idempotent on `a`,
`judgmentallyEqual(a, Normalize(a))` holds exactly when the normal form of `a`
holds no NaN. -/
theorem C19_judgmental_equality (P : Prims) (a b c : Expr) :
    (judgmentallyEqual P a a = true ↔ nanFree (Normalize P a) = true) ∧
    (judgmentallyEqual P a b = true → judgmentallyEqual P b a = true) ∧
    (judgmentallyEqual P a b = true → judgmentallyEqual P b c = true →
      judgmentallyEqual P a c = true) ∧
    (Normalize P (Normalize P a) = Normalize P a →
      (judgmentallyEqual P a (Normalize P a) = true ↔ nanFree (Normalize P a) = true)) := by
  refine ⟨deepEqual_self _, deepEqual_symm, deepEqual_trans, ?_⟩
  intro hidem
  unfold judgmentallyEqual
  rw [hidem]
  exact deepEqual_self _

theorem C19_judgmental_equality_witness :
    judgmentallyEqual refPrims (.NaturalPlus (.NaturalLit 1) (.NaturalLit 1)) (.NaturalLit 2)
      = true ∧
    judgmentallyEqual refPrims (.NaturalLit 2) redexTwo = true ∧
    judgmentallyEqual refPrims (.NaturalLit 2) (.NaturalPlus (.NaturalLit 1) (.NaturalLit 1))
      = true ∧
    judgmentallyEqual refPrims (.NaturalPlus (.NaturalLit 1) (.NaturalLit 1)) redexTwo = true :=
  ⟨by decide, by decide,
    (C19_judgmental_equality refPrims (.NaturalPlus (.NaturalLit 1) (.NaturalLit 1))
      (.NaturalLit 2) redexTwo).2.1 (by decide),
    (C19_judgmental_equality refPrims (.NaturalPlus (.NaturalLit 1) (.NaturalLit 1))
      (.NaturalLit 2) redexTwo).2.2.1 (by decide) (by decide)⟩


/-! ## Errors of later sub-terms -/

/-- The loop over the later elements of a list passes on the error of the first
element that fails, when the elements before it were accepted. -/
theorem listLoop_error (P : Prims) {call : Expr → TypeContext → Outcome} (t s : Expr)
    (e2 : TypeError) (c2 : TypeContext) (post : Exprs) (ctx : TypeContext)
    (hs : call s ctx = some (.error e2, c2)) :
    ∀ pre : List Expr,
      (∀ x ∈ pre, ∃ t2, call x ctx = some (.ok t2, ctx) ∧ judgmentallyEqual P t t2 = true) →
      listLoop P call t (Exprs.prepend pre (.cons s post)) ctx = some (.error e2, c2)
  | [], _ => by
      simp only [Exprs.prepend, List.foldr, listLoop, hs, andThen_error]
  | x :: pre, h => by
      obtain ⟨t2, hx, hj⟩ := h x (List.mem_cons_self x pre)
      have ih := listLoop_error P t s e2 c2 post ctx hs pre
        (fun y hy => h y (List.mem_cons_of_mem x hy))
      simp only [Exprs.prepend, List.foldr] at ih ⊢
      simp only [listLoop, hx, andThen_ok, hj, if_true]
      exact ih

/-- Finitely many calls that each return a type all do so with one amount of
fuel. -/
theorem uniform_fuel (P : Prims) (t : Expr) (ctx : TypeContext) :
    ∀ pre : List Expr,
      (∀ x ∈ pre, ∃ t2 cx, Returns P x ctx (.ok t2) cx ∧ judgmentallyEqual P t t2 = true) →
      ∃ N, ∀ x ∈ pre, ∃ t2, TypeWith P N x ctx = some (.ok t2, ctx) ∧
        judgmentallyEqual P t t2 = true
  | [], _ => ⟨0, fun x hx => absurd hx (List.not_mem_nil x)⟩
  | x :: pre, h => by
      obtain ⟨N, hN⟩ := uniform_fuel P t ctx pre (fun y hy => h y (List.mem_cons_of_mem x hy))
      obtain ⟨t2, cx, hr, hj⟩ := h x (List.mem_cons_self x pre)
      rw [Returns_ok_ctx P hr] at hr
      obtain ⟨n, hn⟩ := hr
      refine ⟨max n N, ?_⟩
      intro y hy
      rcases List.mem_cons.mp hy with rfl | hy
      · exact ⟨t2, TypeWith_mono P (Nat.le_max_left n N) hn, hj⟩
      · obtain ⟨t3, h3, hj3⟩ := hN y hy
        exact ⟨t3, TypeWith_mono P (Nat.le_max_right n N) h3, hj3⟩

/-- Every rule also passes on, unchanged, the error of a later sub-term once the
checks before it have passed: the body of a `LambdaExpr`, the codomain of a
`Pi` (whose binding then stays pushed), the argument of an `App`, the
expression of an `Annot`, the right operand of a `NaturalPlus`, and any later
element of a `NonEmptyList`. -/
theorem later_error_propagates (P : Prims) (ctx c2 : TypeContext) (s : Expr)
    (e2 : TypeError) :
    (∀ (label : String) (A tA : Expr) (cA : TypeContext),
      Returns P A ctx (.ok tA) cA →
      Returns P s (Map (fun e => P.Shift 1 ⟨label, 0⟩ e) (Insert ctx label (Normalize P A)))
        (.error e2) c2 →
      Returns P (.LambdaExpr label A s) ctx (.error e2) ctx) ∧
    (∀ (label : String) (dom tA : Expr) (kA : Const) (cA : TypeContext),
      Returns P dom ctx (.ok tA) cA → Normalize P tA = .Const kA →
      Returns P s (setStack ctx label (Normalize P dom :: ctx label)) (.error e2) c2 →
      Returns P (.Pi label dom s) ctx (.error e2) c2) ∧
    (∀ (fn tF : Expr) (l : String) (t b : Expr) (cF : TypeContext),
      Returns P fn ctx (.ok tF) cF → Normalize P tF = .Pi l t b →
      Returns P s ctx (.error e2) c2 →
      Returns P (.App fn s) ctx (.error e2) c2) ∧
    (∀ (ann tD : Expr) (cD : TypeContext),
      Returns P ann ctx (.ok tD) cD → Returns P s ctx (.error e2) c2 →
      Returns P (.Annot s ann) ctx (.error e2) c2) ∧
    (∀ (l tL : Expr) (cL : TypeContext),
      Returns P l ctx (.ok tL) cL → Normalize P tL = .natural →
      Returns P s ctx (.error e2) c2 →
      Returns P (.NaturalPlus l s) ctx (.error e2) c2) ∧
    (∀ (e0 t k : Expr) (c0 ck : TypeContext) (pre : List Expr) (post : Exprs),
      Returns P e0 ctx (.ok t) c0 → Returns P t ctx (.ok k) ck → Normalize P k = .cType →
      (∀ x ∈ pre, ∃ t2 cx, Returns P x ctx (.ok t2) cx ∧ judgmentallyEqual P t t2 = true) →
      Returns P s ctx (.error e2) c2 →
      Returns P (.NonEmptyList (.cons e0 (Exprs.prepend pre (.cons s post)))) ctx
        (.error e2) c2) := by
  refine ⟨?_, ?_, ?_, ?_, ?_, ?_⟩
  · intro label A tA cA hA hs
    rw [Returns_ok_ctx P hA] at hA
    obtain ⟨n, hn⟩ := hA
    obtain ⟨m, hm⟩ := hs
    have a := TypeWith_mono P (Nat.le_max_left n m) hn
    have b := TypeWith_mono P (Nat.le_max_right n m) hm
    exact ⟨max n m + 1, by
      simp only [TypeWith, TypeWithStep, a, andThen_ok, b, onCtx, andThen_error]⟩
  · intro label dom tA kA cA hA hk hs
    rw [Returns_ok_ctx P hA] at hA
    obtain ⟨n, hn⟩ := hA
    obtain ⟨m, hm⟩ := hs
    have a := TypeWith_mono P (Nat.le_max_left n m) hn
    have b := TypeWith_mono P (Nat.le_max_right n m) hm
    exact ⟨max n m + 1, by
      simp only [TypeWith, TypeWithStep, a, andThen_ok, hk, b, andThen_error]⟩
  · intro fn tF l t b cF hF hk hs
    rw [Returns_ok_ctx P hF] at hF
    obtain ⟨n, hn⟩ := hF
    obtain ⟨m, hm⟩ := hs
    have a := TypeWith_mono P (Nat.le_max_left n m) hn
    have b2 := TypeWith_mono P (Nat.le_max_right n m) hm
    exact ⟨max n m + 1, by
      simp only [TypeWith, TypeWithStep, a, andThen_ok, hk, b2, andThen_error]⟩
  · intro ann tD cD hD hs
    rw [Returns_ok_ctx P hD] at hD
    obtain ⟨n, hn⟩ := hD
    obtain ⟨m, hm⟩ := hs
    have a := TypeWith_mono P (Nat.le_max_left n m) hn
    have b := TypeWith_mono P (Nat.le_max_right n m) hm
    exact ⟨max n m + 1, by
      simp only [TypeWith, TypeWithStep, a, andThen_ok, b, andThen_error]⟩
  · intro l tL cL hL hk hs
    rw [Returns_ok_ctx P hL] at hL
    obtain ⟨n, hn⟩ := hL
    obtain ⟨m, hm⟩ := hs
    have a := TypeWith_mono P (Nat.le_max_left n m) hn
    have b := TypeWith_mono P (Nat.le_max_right n m) hm
    exact ⟨max n m + 1, by
      simp only [TypeWith, TypeWithStep, a, andThen_ok, hk, if_true, b, andThen_error]⟩
  · intro e0 t k c0 ck pre post h0 ht hk hpre hs
    rw [Returns_ok_ctx P h0] at h0
    rw [Returns_ok_ctx P ht] at ht
    obtain ⟨n0, hn0⟩ := h0
    obtain ⟨n1, hn1⟩ := ht
    obtain ⟨n2, hn2⟩ := hs
    obtain ⟨n3, hn3⟩ := uniform_fuel P t ctx pre hpre
    have hle0 : n0 ≤ max (max n0 n1) (max n2 n3) :=
      le_trans (Nat.le_max_left n0 n1) (Nat.le_max_left _ _)
    have hle1 : n1 ≤ max (max n0 n1) (max n2 n3) :=
      le_trans (Nat.le_max_right n0 n1) (Nat.le_max_left _ _)
    have hle2 : n2 ≤ max (max n0 n1) (max n2 n3) :=
      le_trans (Nat.le_max_left n2 n3) (Nat.le_max_right _ _)
    have hle3 : n3 ≤ max (max n0 n1) (max n2 n3) :=
      le_trans (Nat.le_max_right n2 n3) (Nat.le_max_right _ _)
    have a0 := TypeWith_mono P hle0 hn0
    have a1 := TypeWith_mono P hle1 hn1
    have a2 := TypeWith_mono P hle2 hn2
    have hloop := listLoop_error P t s e2 c2 post ctx a2 pre (fun x hx => by
      obtain ⟨t2, h3, hj⟩ := hn3 x hx
      exact ⟨t2, TypeWith_mono P hle3 h3, hj⟩)
    refine ⟨max (max n0 n1) (max n2 n3) + 1, ?_⟩
    simp only [TypeWith, TypeWithStep, a0, andThen_ok, a1, hk, if_true]
    exact hloop

end Dhall
